import Mathlib

/-!
Verification of the tortilla text wrapper core (lex.rs, parse.rs, merge.rs,
wrap.rs, lib.rs) against its natural-language specification.

The repository pipeline is a pull-based sequence of stages: tokenizer,
line parser, continuation merger, line wrapper.  We embed each stage as an
executable Lean function over lists.  Unicode facts the code obtains from
external crates are abstracted:

* grapheme segmentation (crate unicode_segmentation): inputs are modelled
  as the list of grapheme cluster strings of the input, so that the input
  string is the concatenation of the list;
* display width (crate unicode_width, method width_cjk): modelled as a
  function parameter `wcjk : String → Nat`.

Machine integers (usize) are modelled as Nat; `saturating_sub` is the
truncated Nat subtraction.  The sentinel usize::MAX used by the optimal-fit
strategy is the literal 2^64 - 1.
-/

namespace Tortilla

/-- Newline characters (lib.rs `Newline`). -/
inductive Newline where
  | LF
  | CRLF
deriving DecidableEq, Repr

/-- String representation of the newline character (lib.rs `Newline::as_str`). -/
def Newline.as_str : Newline → String
  | .LF => "\n"
  | .CRLF => "\r\n"

/-- Tokens of the lexer (lib.rs `Token`).  A `word` is one or more graphemes
devoid of space, tab and newline characters. -/
inductive Token where
  | space
  | tab
  | newline (kind : Newline)
  | word (w : String)
deriving DecidableEq, Repr

/-- Textual form of a token, used to state the round-trip property. -/
def Token.text : Token → String
  | .space => " "
  | .tab => "\t"
  | .newline kind => kind.as_str
  | .word w => w

/-- A run of identical whitespace characters (lib.rs `Whitespace`). -/
inductive Whitespace where
  | space (n : Nat)
  | tab (n : Nat)
deriving DecidableEq, Repr

/-- Repetition count of the whitespace (lib.rs `Whitespace::count`). -/
def Whitespace.count : Whitespace → Nat
  | .space c => c
  | .tab c => c

/-- String representation of the whitespace character, repeated only once
(lib.rs `Whitespace::as_str`). -/
def Whitespace.as_str : Whitespace → String
  | .space _ => " "
  | .tab _ => "\t"

/-- A parsed physical line (lib.rs `Line`). -/
structure Line where
  indent : Whitespace
  comment : Option String
  padding : Whitespace
  bullet : Option String
  words : List String
  newline : Bool
deriving DecidableEq, Repr

/-- Parameters for line breaking and formatting (lib.rs `Toppings`). -/
structure Toppings where
  tabs : Nat
  width : Nat
  newline : Newline
deriving DecidableEq, Repr

/-! ## Tokenizer (lex.rs)

`word_break` classifies a separator grapheme; `lexAux` is the two-state
machine of `Lexer::next` (state `Clean` is `none`, state `Word(start)` is
`some acc` where `acc` is the accumulated slice, since a slice of
consecutive graphemes equals their concatenation).  lib.rs gives the token
type a newline kind, so the two separator graphemes map to the two kinds. -/

/-- lex.rs `word_break`. -/
def word_break (grapheme : String) : Option Token :=
  if grapheme = " " then some .space
  else if grapheme = "\t" then some .tab
  else if grapheme = "\n" then some (.newline .LF)
  else if grapheme = "\r\n" then some (.newline .CRLF)
  else none

/-- The state machine of lex.rs `Lexer::next`, fused over the whole input.
First argument: `none` = state `Clean`, `some acc` = state `Word` with the
accumulated word `acc`.  On a separator in state `Word` the word is emitted
followed by the separator (the `pending` mechanism of the iterator). -/
def lexAux : Option String → List String → List Token
  | none, [] => []
  | some acc, [] => [.word acc]
  | none, g :: gs =>
    match word_break g with
    | some t => t :: lexAux none gs
    | none => lexAux (some g) gs
  | some acc, g :: gs =>
    match word_break g with
    | some t => .word acc :: t :: lexAux none gs
    | none => lexAux (some (acc ++ g)) gs

/-- lex.rs `lex`: tokenize a list of grapheme clusters. -/
def lex (graphemes : List String) : List Token :=
  lexAux none graphemes

/-- Concatenation of the textual forms of a token list. -/
def tokensText (ts : List Token) : String :=
  ts.foldr (fun t acc => t.text ++ acc) ""

/-- Concatenation of a list of strings (the input string as the
concatenation of its grapheme clusters). -/
def strJoin (gs : List String) : String :=
  gs.foldr (fun g acc => g ++ acc) ""

/-! ## Parser (parse.rs)

Each sub-parser takes the token stream and returns its result together with
the remaining stream (the `Peekable` lookahead of the Rust code). -/

/-- parse.rs `COMMENT_TOKENS`. -/
def commentTokens : List String := ["#", ">", ";", "//", "--", ";;", "///", "//!"]

/-- The greedy `while next_if_eq` loop of parse.rs `Parse::whitespace`:
count leading tokens equal to `t`. -/
def eatRun (t : Token) : List Token → Nat × List Token
  | [] => (0, [])
  | u :: ts =>
    if u = t then ((eatRun t ts).1 + 1, (eatRun t ts).2)
    else (0, u :: ts)

/-- parse.rs `Parse::whitespace`: consume a leading space or tab, then
greedily consume tokens equal to the first; otherwise `Space(0)`. -/
def pWhitespace : List Token → Whitespace × List Token
  | .space :: ts =>
    let (n, r) := eatRun .space ts
    (.space (n + 1), r)
  | .tab :: ts =>
    let (n, r) := eatRun .tab ts
    (.tab (n + 1), r)
  | ts => (.space 0, ts)

/-- parse.rs `Parse::comment`: consume the next token iff it is a word equal
to one of the recognized comment tokens. -/
def pComment : List Token → Option String × List Token
  | .word w :: ts =>
    if w ∈ commentTokens then (some w, ts) else (none, .word w :: ts)
  | ts => (none, ts)

/-- Byte length of a string (Rust `str::len`). -/
def utf8Len (w : String) : Nat :=
  (w.data.map Char.utf8Size).sum

/-- The bullet predicate of parse.rs `Parse::bullet`: a literal bullet, or a
word that ends with a dot or closing parenthesis, has byte length greater
than one, and whose first `len - 1` characters are all ASCII digits. -/
def is_bullet (w : String) : Bool :=
  w ∈ ["-", "*", "•"] ||
    ((match w.data.getLast? with
      | some c => c = '.' || c = ')'
      | none => false) &&
     decide (1 < utf8Len w) &&
     (w.data.take (utf8Len w - 1)).all (·.isDigit))

/-- parse.rs `Parse::bullet`: consume the next token iff it is a word
accepted by the bullet predicate. -/
def pBullet : List Token → Option String × List Token
  | .word w :: ts =>
    if is_bullet w then (some w, ts) else (none, .word w :: ts)
  | ts => (none, ts)

/-- parse.rs `Parse::words`: consume tokens until a newline or the end of
the stream, dropping spaces and tabs and collecting word slices; the
boolean records whether a newline terminated the line. -/
def pWords : List Token → List String × Bool × List Token
  | [] => ([], false, [])
  | .newline _ :: ts => ([], true, ts)
  | .word w :: ts =>
    let s := pWords ts
    (w :: s.1, s.2.1, s.2.2)
  | .space :: ts => pWords ts
  | .tab :: ts => pWords ts

/-- parse.rs `Parse::next`, iterated: while tokens remain, parse one line
(indent, comment, padding, bullet, words) and continue on the rest.  The
fuel argument only serves termination; `parse` supplies enough
(each produced line consumes at least one token). -/
def parseAux : Nat → List Token → List Line
  | 0, _ => []
  | _, [] => []
  | fuel + 1, t :: ts =>
    let s0 := pWhitespace (t :: ts)
    let s1 := pComment s0.2
    let s2 := pWhitespace s1.2
    let s3 := pBullet s2.2
    let s4 := pWords s3.2
    { indent := s0.1, comment := s1.1, padding := s2.1,
      bullet := s3.1, words := s4.1, newline := s4.2.1 } :: parseAux fuel s4.2.2

/-- The parser: one `Line` per physical line of the token stream. -/
def parse (ts : List Token) : List Line := parseAux ts.length ts

/-! ### Consumption bounds and fuel irrelevance -/

/-! ### C8: the recognized comment and bullet words

Rust `str::len` is a byte count while `chars().take(len - 1)` walks
characters, so the numeric-bullet test of `Parse::bullet` mixes the two
units.  The following lemmas show the test nevertheless coincides with the
character-level description (every character one byte wide in the accepted
cases). -/

/-! ## Merger (merge.rs)

`width_cjk` of the external unicode_width crate is abstracted as the
function parameter `wcjk`. -/

/-- Whether a whitespace run is of kind space (the
`matches!(_, Whitespace::Space(_))` tests of merge.rs). -/
def Whitespace.is_space : Whitespace → Bool
  | .space _ => true
  | .tab _ => false

/-- merge.rs `bullet_continuation`. -/
def bullet_continuation (wcjk : String → Nat) (upper lower : Line) : Bool :=
  match upper.bullet with
  | none =>
    -- No bullet, padding and indent must match 1 to 1:
    decide (upper.padding = lower.padding) && decide (upper.indent = lower.indent)
  | some bullet =>
    -- If indents are equal, we only need to check the padding:
    let ws :=
      if upper.indent = lower.indent then (upper.padding, lower.padding)
      else (upper.indent, lower.indent)
    -- +1 for space between bullet and word.
    let bullet_width := wcjk bullet + 1
    -- Bullets only work with space padding.
    ws.1.is_space && ws.2.is_space && decide (ws.1.count + bullet_width = ws.2.count)

/-- merge.rs `should_merge`. -/
def should_merge (wcjk : String → Nat) (upper lower : Line) : Bool :=
  !upper.words.isEmpty && !lower.words.isEmpty -- Do not touch "empty" lines
    && lower.bullet.isNone -- Do not touch lines that start their own bullet
    && decide (upper.comment = lower.comment) -- Comment token must match
    && bullet_continuation wcjk upper lower

/-- merge.rs `merge`: append the lower words, conjoin the newline flags. -/
def merge (upper lower : Line) : Line :=
  { upper with
    words := upper.words ++ lower.words,
    newline := upper.newline && lower.newline }

/-- The loop of merge.rs `Merge::next`: absorb following lines into the
current upper line while the predicate holds, then yield it and continue
with the first unabsorbed line. -/
def mergeAllAux (wcjk : String → Nat) : Line → List Line → List Line
  | upper, [] => [upper]
  | upper, lower :: rest =>
    if should_merge wcjk upper lower then
      mergeAllAux wcjk (merge upper lower) rest
    else
      upper :: mergeAllAux wcjk lower rest

/-- The merger over a whole line sequence. -/
def mergeAll (wcjk : String → Nat) : List Line → List Line
  | [] => []
  | l :: ls => mergeAllAux wcjk l ls

/-! ### C6 and C10: idempotence and the frame of the merger -/

/-- The four structural slots that merging never changes. -/
def sameFrame (u l : Line) : Prop :=
  u.indent = l.indent ∧ u.comment = l.comment ∧
  u.padding = l.padding ∧ u.bullet = l.bullet

/-! ## C4: parser faithfulness

The words() rule of the parser drops interior space and tab tokens, and the
`newline` slot is a bare boolean that forgets the newline kind.  So
concatenating the slots of the parsed lines does not, in general,
reconstruct the input: the claim fails (counterexample below, input
`"a  b"`).  What holds is the restriction to canonical inputs: inputs that
re-render exactly from their own parse, i.e. token streams in which every
line is `indent comment padding bullet words` with single spaces between
bullet and words and LF line terminators. -/

/-- The whitespace token of a run. -/
def Whitespace.token : Whitespace → Token
  | .space _ => .space
  | .tab _ => .tab

/-- Textual form of a whitespace run. -/
def Whitespace.text (ws : Whitespace) : String :=
  strJoin (List.replicate ws.count ws.as_str)

/-- Words interleaved with single space tokens. -/
def wordsTokens : List String → List Token
  | [] => []
  | [w] => [.word w]
  | w :: ws => .word w :: .space :: wordsTokens ws

/-- Words interleaved with single spaces, as text. -/
def spaceJoin : List String → String
  | [] => ""
  | [w] => w
  | w :: ws => w ++ " " ++ spaceJoin ws

/-- The canonical token stream of a parsed line: every slot in grammar
order, with single spaces inside the words region and an LF terminator. -/
def lineTokens (l : Line) : List Token :=
  List.replicate l.indent.count l.indent.token
    ++ (match l.comment with | some c => [Token.word c] | none => [])
    ++ List.replicate l.padding.count l.padding.token
    ++ (match l.bullet, l.words with
        | none, ws => wordsTokens ws
        | some b, [] => [Token.word b]
        | some b, ws => Token.word b :: Token.space :: wordsTokens ws)
    ++ (if l.newline then [Token.newline .LF] else [])

/-- The canonical token stream of a line sequence. -/
def linesToTokens (ls : List Line) : List Token :=
  (ls.map lineTokens).flatten

/-- The textual reconstruction of a line from its slots in grammar order,
with a single space restored between bullet and words and between adjacent
words (the reading of the claim that is most favourable to it). -/
def lineText (l : Line) : String :=
  l.indent.text ++ (l.comment.getD "") ++ l.padding.text ++
    (match l.bullet, l.words with
     | none, ws => spaceJoin ws
     | some b, [] => b
     | some b, ws => b ++ " " ++ spaceJoin ws) ++
    (if l.newline then "\n" else "")

/-- The literal reading of the claim: concatenate the slots with nothing
between the words. -/
def lineTextRaw (l : Line) : String :=
  l.indent.text ++ (l.comment.getD "") ++ l.padding.text ++
    (l.bullet.getD "") ++ strJoin l.words ++
    (if l.newline then "\n" else "")

/-- Text of a parsed line sequence. -/
def linesText (ls : List Line) : String := strJoin (ls.map lineText)

/-! ## Wrapper (wrap.rs) -/

/-- A line breaking strategy (wrap.rs trait `Sauce`): `prepare` builds the
strategy state from the word list and the budget; `should_break` answers
whether the word at an index must start a new line, and returns the updated
mutable state. -/
structure Sauce (σ : Type) where
  prepare : List String → Nat → σ
  should_break : σ → List String → Nat → Bool × σ

/-- wrap.rs `Guacamole`: the budget `max` and the running line width. -/
structure GuacState where
  max : Nat
  width : Nat
deriving DecidableEq, Repr

/-- wrap.rs `impl Sauce for Guacamole`.  The indexing `words[idx]` is
modelled with a default value; the safety claim shows the wrapper only
calls it in bounds.  The `0 => (width, false)` arm of the Rust match is
unreachable (the early return above it covers `width == 0`) and is elided. -/
def guacamole (wcjk : String → Nat) : Sauce GuacState where
  prepare := fun _ max => { max := max, width := 0 }
  should_break := fun s words idx =>
    let width := wcjk (words.getD idx "")
    -- First word always fits, and does not produce an extra space.
    if s.width = 0 then (true, { s with width := width })
    -- Add to the current line, and add a space in front.
    else if s.width + width < s.max then
      (false, { s with width := s.width + width + 1 })
    -- Start a new line first, again no need for a space.
    else (true, { s with width := width })

/-- The sentinel `usize::MAX` of `Salsa::prepare`. -/
def USIZE_MAX : Nat := 2 ^ 64 - 1

/-- The cumulative word-width prefix-sum vector of `Salsa::prepare`
(`offsets[0] = 0`, `offsets[i+1] = offsets[i] + width(words[i])`), built
with a running accumulator exactly as the Rust loop does. -/
def salsaOffsetsFrom (wcjk : String → Nat) (acc : Nat) :
    List String → List Nat
  | [] => [acc]
  | w :: ws => acc :: salsaOffsetsFrom wcjk (acc + wcjk w) ws

/-- The `offsets` vector of `Salsa::prepare`. -/
def salsaOffsets (wcjk : String → Nat) (words : List String) : List Nat :=
  salsaOffsetsFrom wcjk 0 words

/-- The inner loop of `Salsa::prepare`: for fixed `start`, iterate
`e = start+1, ..., n` (`steps` counts the remaining iterations), stopping
early when a line longer than `max` holds more than one word, and otherwise
relaxing the distance of node `e` through `start`.  The minimas vector
holds (predecessor, cost) pairs; out-of-range indexing is modelled with a
default (the safety claim shows every access is in bounds). -/
def salsaLL (offs : List Nat) (start e : Nat) : Nat :=
  offs.getD e 0 - offs.getD start 0 + e - start - 1

/-- `penalty` of the inner loop: 0 for the final line, otherwise the
squared saturating slack. -/
def salsaPenalty (max n : Nat) (offs : List Nat) (start e : Nat) : Nat :=
  if e ≠ n then (max - salsaLL offs start e) ^ 2 else 0

/-- `cost = minimas[start].1 + penalty` of the inner loop. -/
def salsaCost (max n : Nat) (offs : List Nat) (start e : Nat)
    (m : List (Nat × Nat)) : Nat :=
  (m.getD start (0, 0)).2 + salsaPenalty max n offs start e

def salsaInner (max n : Nat) (offs : List Nat) (start : Nat) :
    Nat → Nat → List (Nat × Nat) → List (Nat × Nat)
  | 0, _, m => m
  | steps + 1, e, m =>
    if salsaLL offs start e > max ∧ e ≠ start + 1 then m
    else
      salsaInner max n offs start steps (e + 1)
        (if salsaCost max n offs start e m < (m.getD e (0, 0)).2 then
          m.set e (start, salsaCost max n offs start e m)
        else m)

/-- The outer loop of `Salsa::prepare` over `start = 0, ..., n-1`. -/
def salsaOuter (max n : Nat) (offs : List Nat) :
    Nat → Nat → List (Nat × Nat) → List (Nat × Nat)
  | 0, _, m => m
  | steps + 1, start, m =>
    salsaOuter max n offs steps (start + 1)
      (salsaInner max n offs start (n - start) (start + 1) m)

/-- The backtrack of `Salsa::prepare` (`std::iter::successors` from `n`,
following stored predecessors while the index is nonzero).  The fuel is
sufficient in every reachable state because every stored predecessor is
strictly smaller than its node. -/
def backtrack (m : List (Nat × Nat)) : Nat → Nat → List Nat
  | 0, idx => [idx]
  | fuel + 1, idx =>
    idx :: (if idx = 0 then [] else backtrack m fuel (m.getD idx (0, 0)).1)

/-- wrap.rs `Salsa::prepare`: run the shortest-path relaxation and collect
the break set (the backtracked path without its first element `n`). -/
def salsaPrepare (wcjk : String → Nat) (words : List String) (max : Nat) :
    List Nat :=
  let n := words.length
  let offs := salsaOffsets wcjk words
  let m0 : List (Nat × Nat) := (0, 0) :: List.replicate n (0, USIZE_MAX)
  let m := salsaOuter max n offs n 0 m0
  (backtrack m n n).drop 1

/-- wrap.rs `impl Sauce for Salsa`. -/
def salsa (wcjk : String → Nat) : Sauce (List Nat) where
  prepare := fun words max => salsaPrepare wcjk words max
  should_break := fun s _ idx => (s.contains idx, s)

/-- Display width of a whitespace run (the `whitespace_width` closure of
`LineWrap::new`: spaces count 1, tabs count `toppings.tabs`). -/
def whitespaceWidth (toppings : Toppings) : Whitespace → Nat
  | .space count => count
  | .tab count => toppings.tabs * count

/-- `bullet_width` of `LineWrap::new`: visible width of the bullet plus
its trailing space. -/
def bulletWidth (wcjk : String → Nat) (l : Line) : Nat :=
  match l.bullet with
  | some b => wcjk b + 1
  | none => 0

/-- `unbreakable_width` of `LineWrap::new`. -/
def unbreakableWidth (wcjk : String → Nat) (toppings : Toppings) (l : Line) :
    Nat :=
  whitespaceWidth toppings l.indent
    + (match l.comment with | some c => wcjk c | none => 0)
    + whitespaceWidth toppings l.padding
    + bulletWidth wcjk l

/-- `breakable_width` of `LineWrap::new` (`saturating_sub`). -/
def breakableWidth (wcjk : String → Nat) (toppings : Toppings) (l : Line) :
    Nat :=
  toppings.width - unbreakableWidth wcjk toppings l

/-- The fragments emitted by the states `Indent`, `Comment` and `Padding`
of `LineWrap::next`: the structural prefix, one fragment per whitespace
character. -/
def prefixFrags (l : Line) : List String :=
  List.replicate l.indent.count l.indent.as_str
    ++ (match l.comment with | some c => [c] | none => [])
    ++ List.replicate l.padding.count l.padding.as_str

/-- The `Words` loop of `LineWrap::next`.  `i` is the `word_idx` of the
word at the head of `rest` (the wrapper keeps `rest = l.words.drop i`; the
Rust code indexes `l.words[word_idx]`).  For the very first word the
machine moves to `Indent` without emitting, then emits the prefix, the
bullet and (via `BulletSpace` seeded at `bullet_width - 1`) a single space
before the queued word.  For later words a break emits a newline, the
prefix, `bullet_width` spaces when a bullet is present, then the queued
word; a non-break emits a single space and the queued word.  When the words
are exhausted the machine reaches `Final`, emitting a newline iff the line
had one. -/
def wordsFrom (S : Sauce σ) (l : Line) (nl : Newline) (bw : Nat) :
    σ → Nat → List String → List String
  | _, _, [] => if l.newline then [nl.as_str] else []
  | s, i, w :: rest =>
    let br := (S.should_break s l.words i).1
    let s' := (S.should_break s l.words i).2
    if i = 0 then
      (prefixFrags l
          ++ (match l.bullet with | some b => [b, " "] | none => []) ++ [w])
        ++ wordsFrom S l nl bw s' (i + 1) rest
    else if br then
      (nl.as_str :: prefixFrags l
          ++ (match l.bullet with | some _ => List.replicate bw " " | none => [])
          ++ [w])
        ++ wordsFrom S l nl bw s' (i + 1) rest
    else
      " " :: w :: wordsFrom S l nl bw s' (i + 1) rest

/-- wrap.rs `LineWrap`: the fragments emitted for one merged line.  With no
words the machine starts in `Indent`, emits the prefix, the bullet (state
`Bullet` with no pending word) and the optional final newline. -/
def lineWrap (S : Sauce σ) (wcjk : String → Nat) (toppings : Toppings)
    (l : Line) : List String :=
  let bw := bulletWidth wcjk l
  let s0 := S.prepare l.words (breakableWidth wcjk toppings l)
  match l.words with
  | [] =>
    prefixFrags l ++ (match l.bullet with | some b => [b] | none => [])
      ++ (if l.newline then [toppings.newline.as_str] else [])
  | _ => wordsFrom S l toppings.newline bw s0 0 l.words

/-- lib.rs `wrap`: the whole pipeline. -/
def wrap (S : Sauce σ) (wcjk : String → Nat) (toppings : Toppings)
    (graphemes : List String) : List String :=
  ((mergeAll wcjk (parse (lex graphemes))).map (lineWrap S wcjk toppings)).flatten

/-! ## The render model of the wrapper

The fragment stream of `wordsFrom` depends on the strategy only through the
boolean decisions along the thread.  `sauceDecisions` extracts those
decisions; `renderRest` re-emits the fragments from the decision/word
pairs.  Output sub-lines are obtained by splitting the fragment list at
newline fragments. -/

/-- The decisions a strategy takes along the word list. -/
def sauceDecisions (S : Sauce σ) (words : List String) :
    σ → Nat → List String → List Bool
  | _, _, [] => []
  | s, i, _ :: rest =>
    (S.should_break s words i).1 ::
      sauceDecisions S words (S.should_break s words i).2 (i + 1) rest

/-- The fragments that precede the first word of a line. -/
def firstLead (l : Line) : List String :=
  prefixFrags l ++ (match l.bullet with | some b => [b, " "] | none => [])

/-- The fragments that precede a word starting a continuation sub-line. -/
def contLead (l : Line) (bw : Nat) : List String :=
  prefixFrags l ++
    (match l.bullet with | some _ => List.replicate bw " " | none => [])

/-- Re-emission of the fragments for the words after the first, from the
decision/word pairs. -/
def renderRest (l : Line) (nl : Newline) (bw : Nat) :
    List (Bool × String) → List String
  | [] => if l.newline then [nl.as_str] else []
  | (d, w) :: ps =>
    (if d then nl.as_str :: contLead l bw ++ [w] else [" ", w])
      ++ renderRest l nl bw ps

/-- Splitting a fragment list at newline fragments. -/
def splitFrags (nl : String) : List String → List (List String)
  | [] => [[]]
  | f :: fs =>
    if f = nl then [] :: splitFrags nl fs
    else
      match splitFrags nl fs with
      | seg :: segs => (f :: seg) :: segs
      | [] => [[f]]

/-- The textual lines of a fragment list: the segments between newline
fragments, without the phantom empty segment after a final newline. -/
def outLines (nl : String) (frags : List String) : List (List String) :=
  let ss := splitFrags nl frags
  if frags.getLast? = some nl then ss.dropLast else ss

/-- The words placed on the same sub-line as the current word. -/
def firstGroup : List (Bool × String) → List String
  | [] => []
  | (d, w) :: ps => if d then [] else w :: firstGroup ps

/-- The word groups of the sub-lines opened by later breaks. -/
def laterGroups : List (Bool × String) → List (List String)
  | [] => []
  | (d, w) :: ps =>
    if d then (w :: firstGroup ps) :: laterGroups ps else laterGroups ps

/-- Words interleaved with single space fragments. -/
def spacedFrags : List String → List String
  | [] => []
  | [w] => [w]
  | w :: ws => w :: " " :: spacedFrags ws

/-- Space-then-word fragments, continuing a line. -/
def leadingSpaced (ws : List String) : List String :=
  ws.flatMap (fun w => [" ", w])

/-- The width of a word group on one line: word widths plus one space
between each adjacent pair. -/
def groupWidth (wcjk : String → Nat) (g : List String) : Nat :=
  (g.map wcjk).sum + g.length - 1

/-- Width of an output fragment under a configuration: space 1, tab
`toppings.tabs`, newline 0, anything else the word width. -/
def fragWidth (toppings : Toppings) (wcjk : String → Nat) (f : String) : Nat :=
  if f = " " then 1
  else if f = "\t" then toppings.tabs
  else if f = "\n" ∨ f = "\r\n" then 0
  else wcjk f

/-- Width of a fragment list. -/
def fragsWidth (toppings : Toppings) (wcjk : String → Nat)
    (frags : List String) : Nat :=
  (frags.map (fragWidth toppings wcjk)).sum

/-! ### Splitting the fragment stream into sub-lines -/

/-! ## C7: strategy agreement on paragraphs that fit on one line -/

/-! ## C1: the width bound

A fragment is charged its display width by `fragWidth`; a word fragment is
charged `wcjk` only when it is not one of the four separator strings, so
the width statements carry that side condition for comment, bullet and
words (the pipeline never produces such words). -/

/-- A word fragment that cannot be confused with a separator fragment. -/
def NotSeparator (w : String) : Prop :=
  w ≠ " " ∧ w ≠ "\t" ∧ w ≠ "\n" ∧ w ≠ "\r\n"

/-- A word group as delivered by a strategy: it either fits in the budget
or is a single word. -/
def GoodGroup (wcjk : String → Nat) (max : Nat) (g : List String) : Prop :=
  groupWidth wcjk g ≤ max ∨ ∃ w, g = [w]

/-- An edge stored by the salsa relaxation: a sub-line holding the words
`i, ..., j-1`, either a single word or one that fits in the budget. -/
def ValidEdge (max : Nat) (offs : List Nat) (i j : Nat) : Prop :=
  i < j ∧ (j = i + 1 ∨ salsaLL offs i j ≤ max)

/-- The invariant of the `minimas` vector: entry 0 is the source, and
every other entry is either untouched (sentinel cost) or stores a valid
edge from its predecessor. -/
def MinInv (max n : Nat) (offs : List Nat) (m : List (Nat × Nat)) : Prop :=
  m.length = n + 1 ∧ m.getD 0 (0, 0) = (0, 0) ∧
    ∀ j, 1 ≤ j → j ≤ n →
      ((m.getD j (0, 0)).2 = USIZE_MAX ∧ (m.getD j (0, 0)).1 = 0) ∨
        ((m.getD j (0, 0)).2 < USIZE_MAX ∧
          ValidEdge max offs (m.getD j (0, 0)).1 j)

/-! ## C9: totality of the pipeline

The tokenizer, parser and merger are total by construction (plain
structural recursion above).  The wrapper has partial spots: the word
indexing `words[idx]` of `Guacamole::should_break`, and the `pow(2)` /
`+` arithmetic (and vector indexing) of `Salsa::prepare`.  The checked
variants below return `none` exactly where the Rust code would panic
(out-of-bounds indexing, or arithmetic overflowing `usize`). -/

/-- Checked `usize` addition. -/
def checkedAdd (a b : Nat) : Option Nat :=
  if a + b ≤ USIZE_MAX then some (a + b) else none

/-- Checked `usize` squaring (`.pow(2)`). -/
def checkedPow2 (a : Nat) : Option Nat :=
  if a ^ 2 ≤ USIZE_MAX then some (a ^ 2) else none

/-- Checked `penalty` of the salsa inner loop. -/
def salsaPenaltyChecked (max n : Nat) (offs : List Nat) (start e : Nat) :
    Option Nat :=
  if e ≠ n then checkedPow2 (max - salsaLL offs start e) else some 0

/-- Checked `cost` of the salsa inner loop. -/
def salsaCostChecked (max n : Nat) (offs : List Nat) (start e : Nat)
    (m : List (Nat × Nat)) : Option Nat :=
  match salsaPenaltyChecked max n offs start e with
  | none => none
  | some p => checkedAdd (m.getD start (0, 0)).2 p

/-- The salsa inner loop with checked indexing and arithmetic. -/
def salsaInnerChecked (max n : Nat) (offs : List Nat) (start : Nat) :
    Nat → Nat → List (Nat × Nat) → Option (List (Nat × Nat))
  | 0, _, m => some m
  | steps + 1, e, m =>
    if e < offs.length ∧ start < offs.length then
      if salsaLL offs start e > max ∧ e ≠ start + 1 then some m
      else if e < m.length ∧ start < m.length then
        match salsaCostChecked max n offs start e m with
        | none => none
        | some cost =>
          salsaInnerChecked max n offs start steps (e + 1)
            (if cost < (m.getD e (0, 0)).2 then m.set e (start, cost) else m)
      else none
    else none

/-- The salsa outer loop with checked inner iterations. -/
def salsaOuterChecked (max n : Nat) (offs : List Nat) :
    Nat → Nat → List (Nat × Nat) → Option (List (Nat × Nat))
  | 0, _, m => some m
  | steps + 1, start, m =>
    match salsaInnerChecked max n offs start (n - start) (start + 1) m with
    | none => none
    | some m2 => salsaOuterChecked max n offs steps (start + 1) m2

/-- `Salsa::prepare` with checked indexing and arithmetic. -/
def salsaPrepareChecked (wcjk : String → Nat) (words : List String)
    (max : Nat) : Option (List Nat) :=
  match salsaOuterChecked max words.length (salsaOffsets wcjk words)
      words.length 0
      ((0, 0) :: List.replicate words.length (0, USIZE_MAX)) with
  | none => none
  | some m => some ((backtrack m words.length words.length).drop 1)

/-- `Guacamole::should_break` with checked word indexing. -/
def guacamoleChecked (wcjk : String → Nat) (words : List String)
    (s : GuacState) (idx : Nat) : Option (Bool × GuacState) :=
  if idx < words.length then some ((guacamole wcjk).should_break s words idx)
  else none

/-- The decision thread of the first-fit strategy with checked indexing. -/
def sauceDecisionsGuacChecked (wcjk : String → Nat) (words : List String) :
    GuacState → Nat → List String → Option (List Bool)
  | _, _, [] => some []
  | s, i, _ :: rest =>
    match guacamoleChecked wcjk words s i with
    | none => none
    | some (b, s2) =>
      match sauceDecisionsGuacChecked wcjk words s2 (i + 1) rest with
      | none => none
      | some ds => some (b :: ds)

/-- A concrete configuration used by the width-bound witness. -/
def topW : Toppings := { tabs := 4, width := 80, newline := Newline.LF }

/-- A concrete merged line used by the width-bound witness. -/
def lineW : Line :=
  { indent := Whitespace.space 2, comment := some "//",
    padding := Whitespace.space 1, bullet := some "-",
    words := ["ab", "cd"], newline := true }

/-! ## Theorems -/

theorem tokensText_cons (t : Token) (ts : List Token) :
    tokensText (t :: ts) = t.text ++ tokensText ts := rfl

theorem word_break_text {g : String} {t : Token} (h : word_break g = some t) :
    t.text = g := by
  unfold word_break at h
  split_ifs at h with h1 h2 h3 h4 <;>
    (injection h with h; subst h; simp_all [Token.text, Newline.as_str])

theorem lexAux_text (gs : List String) :
    ∀ acc : Option String,
      tokensText (lexAux acc gs) = (acc.getD "") ++ strJoin gs := by
  induction gs with
  | nil =>
    intro acc
    cases acc <;> simp [lexAux, tokensText, strJoin, Token.text]
  | cons g gs ih =>
    intro acc
    cases acc with
    | none =>
      simp only [lexAux]
      cases hwb : word_break g with
      | none =>
        rw [ih (some g)]
        simp [strJoin, String.append_assoc]
      | some t =>
        rw [tokensText_cons, ih none, word_break_text hwb]
        simp [strJoin, String.append_assoc]
    | some acc =>
      simp only [lexAux]
      cases hwb : word_break g with
      | none =>
        rw [ih (some (acc ++ g))]
        simp [strJoin, String.append_assoc]
      | some t =>
        rw [tokensText_cons, tokensText_cons, ih none, word_break_text hwb]
        simp [Token.text, strJoin, String.append_assoc]

/-- C3: concatenating the textual representation of every token produced by
the tokenizer (space as a space, tab as a tab, newline as its LF or CRLF
text, word as its slice of the input) yields the input exactly. -/
theorem lex_roundtrip (graphemes : List String) :
    tokensText (lex graphemes) = strJoin graphemes := by
  have h := lexAux_text graphemes none
  simpa [lex] using h

theorem eatRun_length (t : Token) :
    ∀ ts : List Token, (eatRun t ts).2.length ≤ ts.length := by
  intro ts
  induction ts with
  | nil => simp [eatRun]
  | cons u ts ih =>
    by_cases h : u = t
    · simp only [eatRun, if_pos h, List.length_cons]
      omega
    · simp [eatRun, h]

theorem pWhitespace_length (ts : List Token) :
    (pWhitespace ts).2.length ≤ ts.length := by
  match ts with
  | [] => simp [pWhitespace]
  | .space :: ts =>
    have := eatRun_length Token.space ts
    simp [pWhitespace]; omega
  | .tab :: ts =>
    have := eatRun_length Token.tab ts
    simp [pWhitespace]; omega
  | .newline k :: ts => simp [pWhitespace]
  | .word w :: ts => simp [pWhitespace]

theorem pComment_length (ts : List Token) :
    (pComment ts).2.length ≤ ts.length := by
  match ts with
  | [] => simp [pComment]
  | .word w :: ts =>
    by_cases h : w ∈ commentTokens <;> simp [pComment, h]
  | .space :: ts => simp [pComment]
  | .tab :: ts => simp [pComment]
  | .newline k :: ts => simp [pComment]

theorem pBullet_length (ts : List Token) :
    (pBullet ts).2.length ≤ ts.length := by
  match ts with
  | [] => simp [pBullet]
  | .word w :: ts =>
    by_cases h : is_bullet w <;> simp [pBullet, h]
  | .space :: ts => simp [pBullet]
  | .tab :: ts => simp [pBullet]
  | .newline k :: ts => simp [pBullet]

theorem pWords_length :
    ∀ ts : List Token, (pWords ts).2.2.length ≤ ts.length := by
  intro ts
  induction ts with
  | nil => simp [pWords]
  | cons u ts ih =>
    cases u <;> simp [pWords] <;> omega

theorem pWords_length_lt (u : Token) (ts : List Token) :
    (pWords (u :: ts)).2.2.length < (u :: ts).length := by
  have h := pWords_length ts
  cases u <;> simp [pWords] <;> omega

/-- The remainder after parsing one line is strictly shorter. -/
theorem parse_line_consumes (t : Token) (ts : List Token) :
    (pWords (pBullet (pWhitespace (pComment (pWhitespace (t :: ts)).2).2).2).2).2.2.length
      < (t :: ts).length := by
  have h1 := pWhitespace_length (t :: ts)
  have h2 := pComment_length (pWhitespace (t :: ts)).2
  have h3 := pWhitespace_length (pComment (pWhitespace (t :: ts)).2).2
  have h4 := pBullet_length (pWhitespace (pComment (pWhitespace (t :: ts)).2).2).2
  match hr : (pBullet (pWhitespace (pComment (pWhitespace (t :: ts)).2).2).2).2 with
  | [] => simp [pWords]
  | u :: us =>
    have h5 := pWords_length_lt u us
    rw [hr] at h4
    simp at h1 h4 h5 ⊢
    omega

theorem parseAux_fuel :
    ∀ fuel₁ fuel₂ ts, ts.length ≤ fuel₁ → ts.length ≤ fuel₂ →
      parseAux fuel₁ ts = parseAux fuel₂ ts := by
  intro fuel₁
  induction fuel₁ with
  | zero =>
    intro fuel₂ ts h1 h2
    have : ts = [] := List.eq_nil_of_length_eq_zero (by omega)
    subst this
    cases fuel₂ <;> simp [parseAux]
  | succ f ih =>
    intro fuel₂ ts h1 h2
    match ts with
    | [] => cases fuel₂ <;> simp [parseAux]
    | t :: ts =>
      match fuel₂ with
      | 0 => simp at h2
      | g + 1 =>
        simp only [parseAux]
        have hlt := parse_line_consumes t ts
        have heq := ih g
          (pWords (pBullet (pWhitespace (pComment (pWhitespace (t :: ts)).2).2).2).2).2.2
          (by simp at hlt h1 ⊢; omega) (by simp at hlt h2 ⊢; omega)
        simp only [heq]

/-- Unfolding `parse` one line at a time. -/
theorem parse_cons (t : Token) (ts : List Token) :
    parse (t :: ts) =
      { indent := (pWhitespace (t :: ts)).1,
        comment := (pComment (pWhitespace (t :: ts)).2).1,
        padding := (pWhitespace (pComment (pWhitespace (t :: ts)).2).2).1,
        bullet := (pBullet (pWhitespace (pComment (pWhitespace (t :: ts)).2).2).2).1,
        words := (pWords (pBullet (pWhitespace (pComment (pWhitespace (t :: ts)).2).2).2).2).1,
        newline := (pWords (pBullet (pWhitespace (pComment (pWhitespace (t :: ts)).2).2).2).2).2.1 } ::
      parse (pWords (pBullet (pWhitespace (pComment (pWhitespace (t :: ts)).2).2).2).2).2.2 := by
  show parseAux (t :: ts).length (t :: ts) = _
  have hlt := parse_line_consumes t ts
  simp only [List.length_cons, parseAux]
  congr 1
  exact parseAux_fuel ts.length _ _ (by simp at hlt ⊢; omega) (le_refl _)

theorem length_le_utf8Len (cs : List Char) :
    cs.length ≤ (cs.map Char.utf8Size).sum := by
  induction cs with
  | nil => simp
  | cons c cs ih =>
    have := Char.utf8Size_pos c
    simp only [List.map_cons, List.sum_cons, List.length_cons]
    omega

theorem utf8Size_of_isDigit {c : Char} (h : c.isDigit) : c.utf8Size = 1 := by
  simp [Char.isDigit] at h
  simp only [Char.utf8Size]
  split_ifs with h1 h2 h3 <;>
    first
      | rfl
      | exact absurd (UInt32.le_trans h.2 (by decide)) h1

theorem sum_utf8Size_of_digits {cs : List Char} (h : ∀ c ∈ cs, c.isDigit) :
    (cs.map Char.utf8Size).sum = cs.length := by
  induction cs with
  | nil => simp
  | cons c cs ih =>
    rw [List.map_cons, List.sum_cons, utf8Size_of_isDigit (h c (by simp)),
      ih (fun c hc => h c (by simp [hc]))]
    simp [Nat.add_comm]

/-- The numeric-bullet test, characterized at the character level. -/
theorem is_bullet_iff (w : String) :
    is_bullet w = true ↔
      w = "-" ∨ w = "*" ∨ w = "•" ∨
        (1 < w.data.length ∧
          (∃ c, w.data.getLast? = some c ∧ (c = '.' ∨ c = ')')) ∧
          ∀ c ∈ w.data.dropLast, c.isDigit) := by
  unfold is_bullet
  cases hL : w.data.getLast? with
  | none =>
    simp only [hL, Bool.or_eq_true, Bool.and_eq_true, decide_eq_true_eq]
    constructor
    · rintro (hlit | ⟨⟨hfalse, _⟩, _⟩)
      · simp at hlit
        rcases hlit with h | h | h <;> simp [h]
      · simp at hfalse
    · rintro (h | h | h | ⟨_, ⟨c, hc, _⟩, _⟩)
      · subst h; simp
      · subst h; simp
      · subst h; simp
      · simp at hc
  | some c =>
    have hne : w.data ≠ [] := by
      intro h
      rw [h] at hL
      simp at hL
    simp only [hL, Bool.or_eq_true, Bool.and_eq_true, decide_eq_true_eq,
      List.all_eq_true]
    constructor
    · rintro (hlit | ⟨⟨hcd, hlen⟩, hdig⟩)
      · simp at hlit
        rcases hlit with h | h | h <;> simp [h]
      · right; right; right
        have hn1 : w.data.length ≤ utf8Len w := length_le_utf8Len w.data
        have hlen2 : 1 < w.data.length := by
          rcases Nat.lt_or_ge 1 w.data.length with h | h
          · exact h
          · exfalso
            -- a single character that is a dot or parenthesis has byte
            -- length 1, contradicting 1 < utf8Len w
            match hd : w.data with
            | [] => exact hne hd
            | [c0] =>
              rw [hd] at hL
              simp at hL
              subst hL
              rw [utf8Len, hd] at hlen
              rcases hcd with h1 | h1 <;> subst h1 <;> exact absurd hlen (by decide)
            | c0 :: c1 :: rest =>
              rw [hd] at h
              simp at h
        refine ⟨hlen2, ⟨c, rfl, hcd⟩, ?_⟩
        intro d hd
        apply hdig
        have hdrop : w.data.dropLast = w.data.take (w.data.length - 1) :=
          List.dropLast_eq_take w.data
        rw [hdrop] at hd
        have : w.data.take (w.data.length - 1) =
            (w.data.take (utf8Len w - 1)).take (w.data.length - 1) := by
          rw [List.take_take]
          congr 1
          omega
        rw [this] at hd
        exact List.mem_of_mem_take hd
    · rintro (h | h | h | ⟨hlen, ⟨c0, hc0, hcd⟩, hdig⟩)
      · subst h; simp
      · subst h; simp
      · subst h; simp
      · right
        injection hc0 with hc0
        subst hc0
        have hB : utf8Len w = w.data.length := by
          have hsplit : w.data.dropLast ++ [w.data.getLast hne] = w.data :=
            List.dropLast_append_getLast hne
          have hc' : w.data.getLast hne = c := by
            have := List.getLast?_eq_getLast w.data hne
            rw [hL] at this
            exact (Option.some_inj.mp this).symm
          rw [utf8Len]
          conv_lhs => rw [← hsplit]
          rw [List.map_append, List.sum_append,
            sum_utf8Size_of_digits hdig, hc']
          have : c.utf8Size = 1 := by
            rcases hcd with h | h <;> subst h <;> decide
          simp only [List.map_cons, List.map_nil, List.sum_cons,
            List.sum_nil, this]
          conv_rhs => rw [← hsplit]
          simp
        constructor
        · constructor
          · rcases hcd with h | h <;> simp [h]
          · omega
        · intro d hd
          apply hdig
          rw [List.dropLast_eq_take, ← hB]
          exact hd

/-- C8: the parser fills the comment slot exactly for the eight comment
words, and the bullet slot exactly for the three bullet literals plus the
numeric bullets (more than one character, ending in a dot or closing
parenthesis, all other characters ASCII digits). -/
theorem comment_and_bullet_recognition (w : String) (ts : List Token) :
    ((pComment (.word w :: ts)).1 = some w ↔
      w = "#" ∨ w = ">" ∨ w = ";" ∨ w = "//" ∨ w = "--" ∨ w = ";;" ∨
        w = "///" ∨ w = "//!") ∧
    ((pBullet (.word w :: ts)).1 = some w ↔
      w = "-" ∨ w = "*" ∨ w = "•" ∨
        (1 < w.data.length ∧
          (∃ c, w.data.getLast? = some c ∧ (c = '.' ∨ c = ')')) ∧
          ∀ c ∈ w.data.dropLast, c.isDigit)) := by
  constructor
  · by_cases h : w ∈ commentTokens
    · simp only [pComment, if_pos h, true_iff]
      simpa [commentTokens] using h
    · simp only [pComment, if_neg h]
      constructor
      · intro hfalse; simp at hfalse
      · intro hmem
        exact absurd (by simpa [commentTokens] using hmem) h
  · rw [← is_bullet_iff]
    by_cases h : is_bullet w
    · simp [pBullet, h]
    · simp [pBullet, h]

/-- C5: characterization of the merge decision predicate. -/
theorem should_merge_iff (wcjk : String → Nat) (upper lower : Line) :
    should_merge wcjk upper lower = true ↔
      upper.words ≠ [] ∧ lower.words ≠ [] ∧ lower.bullet = none ∧
      upper.comment = lower.comment ∧
      ((upper.bullet = none ∧ upper.indent = lower.indent ∧
          upper.padding = lower.padding) ∨
       (∃ b, upper.bullet = some b ∧
         ((upper.indent = lower.indent ∧
            ∃ n m, upper.padding = .space n ∧ lower.padding = .space m ∧
              n + (wcjk b + 1) = m) ∨
          (upper.indent ≠ lower.indent ∧
            ∃ n m, upper.indent = .space n ∧ lower.indent = .space m ∧
              n + (wcjk b + 1) = m)))) := by
  unfold should_merge
  simp only [Bool.and_eq_true, Bool.not_eq_true', List.isEmpty_eq_false,
    Option.isNone_iff_eq_none, decide_eq_true_eq]
  constructor
  · rintro ⟨⟨⟨⟨h1, h2⟩, h3⟩, h4⟩, h5⟩
    refine ⟨h1, h2, h3, h4, ?_⟩
    unfold bullet_continuation at h5
    cases hb : upper.bullet with
    | none =>
      rw [hb] at h5
      simp only [Bool.and_eq_true, decide_eq_true_eq] at h5
      exact Or.inl ⟨rfl, h5.2, h5.1⟩
    | some b =>
      rw [hb] at h5
      right
      refine ⟨b, rfl, ?_⟩
      by_cases hi : upper.indent = lower.indent
      · left
        rw [if_pos hi] at h5
        simp only [Bool.and_eq_true, decide_eq_true_eq] at h5
        obtain ⟨⟨hs1, hs2⟩, hc⟩ := h5
        match hp1 : upper.padding, hp2 : lower.padding with
        | .space n, .space m =>
          rw [hp1, hp2] at hc
          exact ⟨hi, n, m, rfl, rfl, by simpa [Whitespace.count] using hc⟩
        | .space n, .tab m => rw [hp2] at hs2; simp [Whitespace.is_space] at hs2
        | .tab n, _ => rw [hp1] at hs1; simp [Whitespace.is_space] at hs1
      · right
        rw [if_neg hi] at h5
        simp only [Bool.and_eq_true, decide_eq_true_eq] at h5
        obtain ⟨⟨hs1, hs2⟩, hc⟩ := h5
        match hp1 : upper.indent, hp2 : lower.indent with
        | .space n, .space m =>
          rw [hp1, hp2] at hc
          rw [hp1, hp2] at hi
          exact ⟨hi, n, m, rfl, rfl, by simpa [Whitespace.count] using hc⟩
        | .space n, .tab m => rw [hp2] at hs2; simp [Whitespace.is_space] at hs2
        | .tab n, _ => rw [hp1] at hs1; simp [Whitespace.is_space] at hs1
  · rintro ⟨h1, h2, h3, h4, h5⟩
    refine ⟨⟨⟨⟨h1, h2⟩, h3⟩, h4⟩, ?_⟩
    unfold bullet_continuation
    rcases h5 with ⟨hb, hi, hp⟩ | ⟨b, hb, hcase⟩
    · rw [hb]
      simp [hi, hp]
    · rw [hb]
      rcases hcase with ⟨hi, n, m, hp1, hp2, hc⟩ | ⟨hi, n, m, hp1, hp2, hc⟩
      · rw [if_pos hi, hp1, hp2]
        simp [Whitespace.is_space, Whitespace.count, hc]
      · rw [if_neg hi, hp1, hp2]
        simp [Whitespace.is_space, Whitespace.count, hc]

theorem sameFrame_refl (l : Line) : sameFrame l l := ⟨rfl, rfl, rfl, rfl⟩

theorem merge_sameFrame (u l : Line) : sameFrame (merge u l) u :=
  ⟨rfl, rfl, rfl, rfl⟩

/-- `should_merge` only inspects the frame and the emptiness of the word
list of the lower line. -/
theorem should_merge_congr_lower (wcjk : String → Nat) (x u l : Line)
    (hf : sameFrame u l) (hw : u.words = [] ↔ l.words = []) :
    should_merge wcjk x u = should_merge wcjk x l := by
  obtain ⟨hi, hc, hp, hb⟩ := hf
  unfold should_merge bullet_continuation
  rw [hi, hc, hp, hb]
  have : u.words.isEmpty = l.words.isEmpty := by
    cases hu : u.words with
    | nil => simp [hu, (hw.mp hu)]
    | cons a as =>
      cases hl : l.words with
      | nil => rw [hw.mpr hl] at hu; simp at hu
      | cons b bs => simp
  rw [this]

/-- Every answer of the absorb loop keeps the frame of the line it started
from, extends its words on the right, and conjoins newline flags. -/
theorem mergeAllAux_head (wcjk : String → Nat) :
    ∀ (ls : List Line) (l : Line),
      ∃ u rest, mergeAllAux wcjk l ls = u :: rest ∧ sameFrame u l ∧
        (u.words = [] ↔ l.words = []) ∧
        ∃ ws b, u.words = l.words ++ ws ∧ u.newline = (l.newline && b) := by
  intro ls
  induction ls with
  | nil =>
    intro l
    exact ⟨l, [], rfl, sameFrame_refl l, Iff.rfl, [], true, by simp, by simp⟩
  | cons lower rest ih =>
    intro l
    by_cases h : should_merge wcjk l lower = true
    · obtain ⟨u, rest', heq, hf, hw, ws, b, hws, hnl⟩ := ih (merge l lower)
      refine ⟨u, rest', ?_, ?_, ?_, ?_⟩
      · simp [mergeAllAux, h, heq]
      · exact ⟨hf.1, hf.2.1, hf.2.2.1, hf.2.2.2⟩
      · have hl : l.words ≠ [] := by
          have := (should_merge_iff wcjk l lower).mp h
          exact this.1
        have hm : (merge l lower).words ≠ [] := by
          simp only [merge, ne_eq, List.append_eq_nil]
          intro hcontra
          exact hl hcontra.1
        constructor
        · intro hu; exact absurd (hw.mp hu) hm
        · intro hle; exact absurd hle hl
      · refine ⟨lower.words ++ ws, lower.newline && b, ?_, ?_⟩
        · rw [hws]; simp [merge]
        · rw [hnl]; simp [merge, Bool.and_assoc]
    · refine ⟨l, mergeAllAux wcjk lower rest, ?_, sameFrame_refl l, Iff.rfl,
        [], true, by simp, by simp⟩
      simp [mergeAllAux, h]

/-- After the merger, no two adjacent output lines satisfy the merge
predicate. -/
theorem mergeAllAux_chain (wcjk : String → Nat) :
    ∀ (ls : List Line) (l : Line),
      List.Chain' (fun a b => should_merge wcjk a b = false)
        (mergeAllAux wcjk l ls) := by
  intro ls
  induction ls with
  | nil => intro l; simp [mergeAllAux]
  | cons lower rest ih =>
    intro l
    by_cases h : should_merge wcjk l lower = true
    · simpa [mergeAllAux, h] using ih (merge l lower)
    · rw [mergeAllAux, if_neg h]
      obtain ⟨u, rest', heq, hf, hw, _⟩ := mergeAllAux_head wcjk rest lower
      rw [heq]
      refine List.Chain'.cons ?_ (heq ▸ ih lower)
      rw [should_merge_congr_lower wcjk l u lower hf hw]
      simpa using h

/-- On a chain free of mergeable neighbours the merger is the identity. -/
theorem mergeAll_of_chain (wcjk : String → Nat) :
    ∀ ls : List Line,
      List.Chain' (fun a b => should_merge wcjk a b = false) ls →
      mergeAll wcjk ls = ls := by
  intro ls
  match ls with
  | [] => intro _; rfl
  | l :: ls =>
    intro hchain
    show mergeAllAux wcjk l ls = l :: ls
    induction ls generalizing l with
    | nil => rfl
    | cons lower rest ih =>
      have hrel : should_merge wcjk l lower = false :=
        (List.chain'_cons.mp hchain).1
      rw [mergeAllAux, if_neg (by simp [hrel])]
      rw [ih lower (List.chain'_cons.mp hchain).2]

/-- C6: the merger is idempotent: running it over its own output yields
exactly the same sequence of lines. -/
theorem mergeAll_idempotent (wcjk : String → Nat) (ls : List Line) :
    mergeAll wcjk (mergeAll wcjk ls) = mergeAll wcjk ls := by
  match ls with
  | [] => rfl
  | l :: ls =>
    exact mergeAll_of_chain wcjk (mergeAllAux wcjk l ls)
      (mergeAllAux_chain wcjk ls l)

/-- Membership version of the absorb loop frame property. -/
theorem mergeAllAux_mem_frame (wcjk : String → Nat) :
    ∀ (ls : List Line) (l u : Line), u ∈ mergeAllAux wcjk l ls →
      ∃ l₀, (l₀ = l ∨ l₀ ∈ ls) ∧ sameFrame u l₀ ∧
        ∃ ws b, u.words = l₀.words ++ ws ∧ u.newline = (l₀.newline && b) := by
  intro ls
  induction ls with
  | nil =>
    intro l u hu
    simp [mergeAllAux] at hu
    exact ⟨l, Or.inl rfl, hu ▸ sameFrame_refl l, [], true, by simp [hu], by simp [hu]⟩
  | cons lower rest ih =>
    intro l u hu
    by_cases h : should_merge wcjk l lower = true
    · rw [mergeAllAux, if_pos h] at hu
      obtain ⟨l₀, hmem, hf, ws, b, hws, hnl⟩ := ih (merge l lower) u hu
      rcases hmem with rfl | hmem
      · exact ⟨l, Or.inl rfl, ⟨hf.1, hf.2.1, hf.2.2.1, hf.2.2.2⟩,
          lower.words ++ ws, lower.newline && b,
          by rw [hws]; simp [merge],
          by rw [hnl]; simp [merge, Bool.and_assoc]⟩
      · exact ⟨l₀, Or.inr (by simp [hmem]), hf, ws, b, hws, hnl⟩
    · rw [mergeAllAux, if_neg h] at hu
      rcases List.mem_cons.mp hu with rfl | hu
      · exact ⟨u, Or.inl rfl, sameFrame_refl u, [], true, by simp, by simp⟩
      · obtain ⟨l₀, hmem, hf, ws, b, hws, hnl⟩ := ih lower u hu
        rcases hmem with rfl | hmem
        · exact ⟨l₀, Or.inr (by simp), hf, ws, b, hws, hnl⟩
        · exact ⟨l₀, Or.inr (by simp [hmem]), hf, ws, b, hws, hnl⟩

/-- C10: every logical line produced by the merger carries the indent,
comment, padding and bullet slots of one of the input lines (the first
physical line of its run) unchanged; only the word list (extended on the
right) and the newline flag (conjoined) differ. -/
theorem mergeAll_frame (wcjk : String → Nat) (ls : List Line) (u : Line)
    (hu : u ∈ mergeAll wcjk ls) :
    ∃ l₀ ∈ ls, sameFrame u l₀ ∧
      ∃ ws b, u.words = l₀.words ++ ws ∧ u.newline = (l₀.newline && b) := by
  match ls with
  | [] => simp [mergeAll] at hu
  | l :: ls =>
    obtain ⟨l₀, hmem, hf, ws, b, hws, hnl⟩ :=
      mergeAllAux_mem_frame wcjk ls l u hu
    exact ⟨l₀, by rcases hmem with rfl | h <;> simp [*], hf, ws, b, hws, hnl⟩

/-- Witness: the frame-preservation theorem applied to the merge of two
plain text lines. -/
theorem mergeAll_frame_witness :
    Line.mk (Whitespace.space 0) none (Whitespace.space 0) none
        ["a", "b"] true ∈
      mergeAll String.length
        [Line.mk (Whitespace.space 0) none (Whitespace.space 0) none
            ["a"] true,
          Line.mk (Whitespace.space 0) none (Whitespace.space 0) none
            ["b"] true] ∧
    ∃ l₀ ∈ [Line.mk (Whitespace.space 0) none (Whitespace.space 0) none
          ["a"] true,
        Line.mk (Whitespace.space 0) none (Whitespace.space 0) none
          ["b"] true],
      sameFrame (Line.mk (Whitespace.space 0) none (Whitespace.space 0)
        none ["a", "b"] true) l₀ ∧
      ∃ ws b, (Line.mk (Whitespace.space 0) none (Whitespace.space 0) none
          ["a", "b"] true).words = l₀.words ++ ws ∧
        (Line.mk (Whitespace.space 0) none (Whitespace.space 0) none
          ["a", "b"] true).newline = (l₀.newline && b) :=
  ⟨by decide,
    mergeAll_frame String.length
      [Line.mk (Whitespace.space 0) none (Whitespace.space 0) none
          ["a"] true,
        Line.mk (Whitespace.space 0) none (Whitespace.space 0) none
          ["b"] true]
      (Line.mk (Whitespace.space 0) none (Whitespace.space 0) none
        ["a", "b"] true)
      (by decide)⟩

theorem strJoin_append (a b : List String) :
    strJoin (a ++ b) = strJoin a ++ strJoin b := by
  induction a with
  | nil =>
    show strJoin b = "" ++ strJoin b
    rw [String.empty_append]
  | cons x a ih =>
    show x ++ strJoin (a ++ b) = (x ++ strJoin a) ++ strJoin b
    rw [ih, String.append_assoc]

theorem tokensText_append (a b : List Token) :
    tokensText (a ++ b) = tokensText a ++ tokensText b := by
  induction a with
  | nil =>
    show tokensText b = "" ++ tokensText b
    rw [String.empty_append]
  | cons x a ih =>
    show x.text ++ tokensText (a ++ b) = (x.text ++ tokensText a) ++ tokensText b
    rw [ih, String.append_assoc]

theorem tokensText_replicate (n : Nat) (t : Token) :
    tokensText (List.replicate n t) = strJoin (List.replicate n t.text) := by
  induction n with
  | zero => rfl
  | succ n ih =>
    rw [List.replicate_succ, List.replicate_succ]
    show t.text ++ tokensText (List.replicate n t) =
      t.text ++ strJoin (List.replicate n t.text)
    rw [ih]

theorem Whitespace.token_text (ws : Whitespace) : ws.token.text = ws.as_str := by
  cases ws <;> rfl

theorem wordsTokens_text (ws : List String) :
    tokensText (wordsTokens ws) = spaceJoin ws := by
  match ws with
  | [] => rfl
  | [w] => simp [wordsTokens, spaceJoin, tokensText, Token.text]
  | w :: w' :: ws =>
    have ih := wordsTokens_text (w' :: ws)
    simp only [wordsTokens, spaceJoin, tokensText_cons, ih, Token.text]
    simp [String.append_assoc]

/-- A parsed line reconstructs textually from its canonical token form. -/
theorem lineTokens_text (l : Line) :
    tokensText (lineTokens l) = lineText l := by
  have h1 : tokensText (List.replicate l.indent.count l.indent.token) =
      l.indent.text := by
    rw [tokensText_replicate, Whitespace.token_text, Whitespace.text]
  have h2 : tokensText
      (match l.comment with | some c => [Token.word c] | none => []) =
      l.comment.getD "" := by
    cases l.comment <;> simp [tokensText, Token.text]
  have h3 : tokensText (List.replicate l.padding.count l.padding.token) =
      l.padding.text := by
    rw [tokensText_replicate, Whitespace.token_text, Whitespace.text]
  have h4 : tokensText
      (match l.bullet, l.words with
        | none, ws => wordsTokens ws
        | some b, [] => [Token.word b]
        | some b, ws => Token.word b :: Token.space :: wordsTokens ws) =
      (match l.bullet, l.words with
        | none, ws => spaceJoin ws
        | some b, [] => b
        | some b, ws => b ++ " " ++ spaceJoin ws) := by
    cases l.bullet with
    | none => exact wordsTokens_text l.words
    | some b =>
      cases l.words with
      | nil => simp [tokensText, Token.text]
      | cons w ws =>
        rw [tokensText_cons, tokensText_cons, wordsTokens_text]
        simp [Token.text, String.append_assoc]
  have h5 : tokensText
      (if l.newline then [Token.newline .LF] else []) =
      (if l.newline then "\n" else "") := by
    cases l.newline <;> simp [tokensText, Token.text, Newline.as_str]
  unfold lineTokens lineText
  rw [tokensText_append, tokensText_append, tokensText_append,
    tokensText_append, h1, h2, h3, h4, h5]

theorem linesToTokens_text (ls : List Line) :
    tokensText (linesToTokens ls) = linesText ls := by
  induction ls with
  | nil => rfl
  | cons l ls ih =>
    show tokensText (lineTokens l ++ (List.map lineTokens ls).flatten) =
      strJoin (lineText l :: List.map lineText ls)
    rw [tokensText_append, lineTokens_text]
    show lineText l ++ _ = lineText l ++ _
    exact congrArg (fun s => lineText l ++ s) ih

/-- C4, amended: on canonical inputs (token streams that re-render exactly
from their own parse: single interior spaces, LF newlines, no trailing
whitespace inside a line), concatenating every slot of every parsed line in
grammar order, with the single separating spaces of the words region
restored, reconstructs the input exactly. -/
theorem parse_reconstructs_canonical (graphemes : List String)
    (h : linesToTokens (parse (lex graphemes)) = lex graphemes) :
    linesText (parse (lex graphemes)) = strJoin graphemes :=
  calc linesText (parse (lex graphemes))
      = tokensText (linesToTokens (parse (lex graphemes))) :=
        (linesToTokens_text _).symm
    _ = tokensText (lex graphemes) := by rw [h]
    _ = strJoin graphemes := lex_roundtrip graphemes

/-- Witness for the amended C4 on the concrete input `"// a b\n- c\n"`. -/
theorem parse_reconstructs_canonical_witness :
    linesText (parse (lex
        ["/", "/", " ", "a", " ", "b", "\n", "-", " ", "c", "\n"])) =
      strJoin ["/", "/", " ", "a", " ", "b", "\n", "-", " ", "c", "\n"] :=
  parse_reconstructs_canonical _ (by decide)

/-- Counterexample to C4 as stated: for the input `"a  b"` (two interior
spaces) the parsed words are `["a", "b"]` and both readings of
slot-concatenation (words joined by single spaces, words joined bare) fail
to reconstruct the input. -/
theorem parse_not_faithful :
    linesText (parse (lex ["a", " ", " ", "b"])) ≠
        strJoin ["a", " ", " ", "b"] ∧
      strJoin ((parse (lex ["a", " ", " ", "b"])).map lineTextRaw) ≠
        strJoin ["a", " ", " ", "b"] := by
  decide

theorem wordsFrom_render (S : Sauce σ) (l : Line) (nl : Newline) (bw : Nat) :
    ∀ (rest : List String) (s : σ) (i : Nat), i ≠ 0 →
      wordsFrom S l nl bw s i rest =
        renderRest l nl bw ((sauceDecisions S l.words s i rest).zip rest) := by
  intro rest
  induction rest with
  | nil => intro s i hi; rfl
  | cons w rest ih =>
    intro s i hi
    show wordsFrom S l nl bw s i (w :: rest) = _
    rw [wordsFrom, sauceDecisions]
    simp only [List.zip_cons_cons, renderRest]
    rw [if_neg hi]
    by_cases hbr : (S.should_break s l.words i).1
    · rw [if_pos hbr, if_pos hbr, ih _ (i + 1) (by omega)]
      simp [contLead, List.zip, List.append_assoc]
    · rw [if_neg hbr, if_neg hbr, ih _ (i + 1) (by omega)]
      simp [List.zip]

theorem lineWrap_render (S : Sauce σ) (wcjk : String → Nat)
    (toppings : Toppings) (l : Line) (w0 : String) (rest : List String)
    (hw : l.words = w0 :: rest) :
    lineWrap S wcjk toppings l =
      (firstLead l ++ [w0]) ++
        renderRest l toppings.newline (bulletWidth wcjk l)
          ((sauceDecisions S l.words
              (S.should_break
                (S.prepare l.words (breakableWidth wcjk toppings l))
                l.words 0).2
              1 rest).zip rest) := by
  unfold lineWrap
  rw [hw]
  show wordsFrom S l toppings.newline (bulletWidth wcjk l)
      (S.prepare (w0 :: rest) (breakableWidth wcjk toppings l)) 0 (w0 :: rest) = _
  rw [wordsFrom]
  rw [if_pos rfl]
  rw [wordsFrom_render S l toppings.newline (bulletWidth wcjk l) rest _ 1
    (by omega)]
  rw [hw]
  simp [firstLead, List.append_assoc]

theorem Newline.as_str_ne_space (k : Newline) : k.as_str ≠ " " := by
  cases k <;> decide

theorem Newline.as_str_ne_tab (k : Newline) : k.as_str ≠ "\t" := by
  cases k <;> decide

theorem splitFrags_ne_nil (nl : String) :
    ∀ fs : List String, splitFrags nl fs ≠ [] := by
  intro fs
  match fs with
  | [] => simp [splitFrags]
  | f :: fs =>
    by_cases h : f = nl
    · simp [splitFrags, h]
    · have := splitFrags_ne_nil nl fs
      simp only [splitFrags, if_neg h]
      match hs : splitFrags nl fs with
      | [] => simp
      | seg :: segs => simp

theorem splitFrags_cons_ne {nl f : String} (hf : f ≠ nl) {fs seg : List String}
    {segs : List (List String)} (h : splitFrags nl fs = seg :: segs) :
    splitFrags nl (f :: fs) = (f :: seg) :: segs := by
  simp only [splitFrags, if_neg hf, h]

theorem splitFrags_nl_cons (nl : String) (fs : List String) :
    splitFrags nl (nl :: fs) = [] :: splitFrags nl fs := by
  simp [splitFrags]

theorem splitFrags_append {nl : String} :
    ∀ (a : List String), (∀ f ∈ a, f ≠ nl) →
      ∀ {x : List String} {seg : List String} {segs : List (List String)},
        splitFrags nl x = seg :: segs →
        splitFrags nl (a ++ x) = (a ++ seg) :: segs := by
  intro a
  induction a with
  | nil => intro _ x seg segs h; simpa using h
  | cons f a ih =>
    intro ha x seg segs h
    have hf : f ≠ nl := ha f (by simp)
    have ha' : ∀ g ∈ a, g ≠ nl := fun g hg => ha g (by simp [hg])
    show splitFrags nl (f :: (a ++ x)) = _
    rw [splitFrags_cons_ne hf (ih ha' h)]
    simp

theorem spacedFrags_cons (w : String) (g : List String) :
    spacedFrags (w :: g) = w :: leadingSpaced g := by
  match g with
  | [] => rfl
  | w' :: g' =>
    show w :: " " :: spacedFrags (w' :: g') = _
    rw [spacedFrags_cons w' g']
    simp [leadingSpaced]

theorem leadingSpaced_cons (w : String) (g : List String) :
    leadingSpaced (w :: g) = " " :: w :: leadingSpaced g := by
  simp [leadingSpaced]

/-- Splitting the re-emitted fragments of the word loop: one (possibly
continuing) head segment, one segment per break, and the phantom empty
segment after the final newline. -/
theorem splitFrags_renderRest (l : Line) (nl : Newline) (bw : Nat)
    (hlead : ∀ f ∈ contLead l bw, f ≠ nl.as_str) :
    ∀ ps : List (Bool × String), (∀ p ∈ ps, p.2 ≠ nl.as_str) →
      splitFrags nl.as_str (renderRest l nl bw ps) =
        leadingSpaced (firstGroup ps) ::
          ((laterGroups ps).map (fun g => contLead l bw ++ spacedFrags g)
            ++ (if l.newline then [[]] else [])) := by
  intro ps
  induction ps with
  | nil =>
    intro _
    cases hn : l.newline <;>
      simp [renderRest, splitFrags, firstGroup, laterGroups, leadingSpaced, hn]
  | cons p ps ih =>
    intro hps
    obtain ⟨d, w⟩ := p
    have hw : w ≠ nl.as_str := hps (d, w) (by simp)
    have hps' : ∀ p ∈ ps, p.2 ≠ nl.as_str := fun p hp => hps p (by simp [hp])
    have hrec := ih hps'
    cases d with
    | true =>
      have hfree : ∀ f ∈ contLead l bw ++ [w], f ≠ nl.as_str := by
        intro f hf
        rcases List.mem_append.mp hf with hf | hf
        · exact hlead f hf
        · simp at hf; subst hf; exact hw
      show splitFrags nl.as_str
          (nl.as_str :: contLead l bw ++ [w] ++ renderRest l nl bw ps) = _
      have h1 : nl.as_str :: contLead l bw ++ [w] ++ renderRest l nl bw ps =
          nl.as_str :: ((contLead l bw ++ [w]) ++ renderRest l nl bw ps) := by
        simp
      rw [h1, splitFrags_nl_cons,
        splitFrags_append (contLead l bw ++ [w]) hfree hrec]
      show _ = leadingSpaced [] ::
        ((contLead l bw ++ spacedFrags (w :: firstGroup ps)) ::
            (laterGroups ps).map (fun g => contLead l bw ++ spacedFrags g)
          ++ (if l.newline then [[]] else []))
      rw [spacedFrags_cons]
      simp [leadingSpaced]
    | false =>
      show splitFrags nl.as_str (" " :: w :: renderRest l nl bw ps) = _
      rw [splitFrags_cons_ne (Ne.symm (Newline.as_str_ne_space nl))
        (splitFrags_cons_ne hw hrec)]
      show _ = leadingSpaced (w :: firstGroup ps) ::
        ((laterGroups ps).map (fun g => contLead l bw ++ spacedFrags g)
          ++ (if l.newline then [[]] else []))
      rw [leadingSpaced_cons]

theorem renderRest_ne_nil_of_newline (l : Line) (nl : Newline) (bw : Nat)
    (hn : l.newline = true) :
    ∀ ps, renderRest l nl bw ps ≠ [] := by
  intro ps
  match ps with
  | [] => simp [renderRest, hn]
  | (d, w) :: ps =>
    show (if d then _ else _) ++ _ ≠ []
    cases d <;> simp

theorem renderRest_getLast_newline (l : Line) (nl : Newline) (bw : Nat)
    (hn : l.newline = true) :
    ∀ ps, (renderRest l nl bw ps).getLast? = some nl.as_str := by
  intro ps
  induction ps with
  | nil => simp [renderRest, hn]
  | cons p ps ih =>
    obtain ⟨d, w⟩ := p
    show ((if d then _ else _) ++ renderRest l nl bw ps).getLast? = _
    rw [List.getLast?_append_of_ne_nil _
      (renderRest_ne_nil_of_newline l nl bw hn ps)]
    exact ih

theorem renderRest_nil_iff (l : Line) (nl : Newline) (bw : Nat)
    (hn : l.newline = false) :
    ∀ ps, renderRest l nl bw ps = [] ↔ ps = [] := by
  intro ps
  match ps with
  | [] => simp [renderRest, hn]
  | (d, w) :: ps =>
    show ((if d then _ else _) ++ _ = []) ↔ _
    cases d <;> simp

theorem renderRest_getLast_ne (l : Line) (nl : Newline) (bw : Nat)
    (hn : l.newline = false) :
    ∀ ps, (∀ p ∈ ps, p.2 ≠ nl.as_str) →
      ∀ x, (renderRest l nl bw ps).getLast? = some x → x ≠ nl.as_str := by
  intro ps
  induction ps with
  | nil =>
    intro _ x hx
    rw [show renderRest l nl bw [] = [] by simp [renderRest, hn]] at hx
    simp at hx
  | cons p ps ih =>
    intro hps x hx
    obtain ⟨d, w⟩ := p
    have hw : w ≠ nl.as_str := hps (d, w) (by simp)
    have hps' : ∀ p ∈ ps, p.2 ≠ nl.as_str := fun p hp => hps p (by simp [hp])
    by_cases hnil : renderRest l nl bw ps = []
    · have hpsnil : ps = [] := (renderRest_nil_iff l nl bw hn ps).mp hnil
      subst hpsnil
      rw [show renderRest l nl bw [(d, w)] =
          (if d then nl.as_str :: contLead l bw ++ [w] else [" ", w]) ++ [] by
        simp [renderRest, hn]] at hx
      rw [List.append_nil] at hx
      cases d with
      | true =>
        rw [if_pos rfl] at hx
        rw [show nl.as_str :: contLead l bw ++ [w] =
          (nl.as_str :: contLead l bw) ++ [w] by simp] at hx
        rw [List.getLast?_concat] at hx
        injection hx with hx
        subst hx
        exact hw
      | false =>
        rw [if_neg (by simp)] at hx
        rw [show ([" ", w] : List String) = [" "] ++ [w] by simp,
          List.getLast?_concat] at hx
        injection hx with hx
        subst hx
        exact hw
    · rw [show renderRest l nl bw ((d, w) :: ps) =
          (if d then nl.as_str :: contLead l bw ++ [w] else [" ", w]) ++
            renderRest l nl bw ps from rfl,
        List.getLast?_append_of_ne_nil _ hnil] at hx
      exact ih hps' x hx

/-- The sub-lines of the wrapper output for a line with at least one word:
a first sub-line made of the first lead and the first word group, then one
sub-line per break, made of the continuation lead and the word group of the
break. -/
theorem outLines_render (l : Line) (nl : Newline) (bw : Nat) (w0 : String)
    (hlead : ∀ f ∈ contLead l bw, f ≠ nl.as_str)
    (hA : ∀ f ∈ firstLead l, f ≠ nl.as_str)
    (hw0 : w0 ≠ nl.as_str)
    (ps : List (Bool × String)) (hps : ∀ p ∈ ps, p.2 ≠ nl.as_str) :
    outLines nl.as_str ((firstLead l ++ [w0]) ++ renderRest l nl bw ps) =
      (firstLead l ++ spacedFrags (w0 :: firstGroup ps)) ::
        (laterGroups ps).map (fun g => contLead l bw ++ spacedFrags g) := by
  have hsplit := splitFrags_renderRest l nl bw hlead ps hps
  have hfree : ∀ f ∈ firstLead l ++ [w0], f ≠ nl.as_str := by
    intro f hf
    rcases List.mem_append.mp hf with hf | hf
    · exact hA f hf
    · simp at hf; subst hf; exact hw0
  have hall := splitFrags_append (firstLead l ++ [w0]) hfree hsplit
  have hhead : (firstLead l ++ [w0]) ++ leadingSpaced (firstGroup ps) =
      firstLead l ++ spacedFrags (w0 :: firstGroup ps) := by
    rw [spacedFrags_cons, List.append_assoc]
    rfl
  unfold outLines
  cases hn : l.newline with
  | true =>
    rw [if_pos ?side]
    case side =>
      rw [List.getLast?_append_of_ne_nil _
        (renderRest_ne_nil_of_newline l nl bw hn ps)]
      exact renderRest_getLast_newline l nl bw hn ps
    rw [hall, hhead]
    rw [show ((laterGroups ps).map (fun g => contLead l bw ++ spacedFrags g)
        ++ (if l.newline then [[]] else [])) =
      ((laterGroups ps).map (fun g => contLead l bw ++ spacedFrags g)
        ++ [[]]) by rw [hn]; simp]
    rw [show (firstLead l ++ spacedFrags (w0 :: firstGroup ps)) ::
        ((laterGroups ps).map (fun g => contLead l bw ++ spacedFrags g) ++ [[]]) =
      ((firstLead l ++ spacedFrags (w0 :: firstGroup ps)) ::
        (laterGroups ps).map (fun g => contLead l bw ++ spacedFrags g)) ++ [[]]
      by simp]
    rw [List.dropLast_concat]
  | false =>
    rw [if_neg ?side]
    case side =>
      intro hcontra
      by_cases hnil : renderRest l nl bw ps = []
      · rw [hnil, List.append_nil, List.getLast?_concat] at hcontra
        injection hcontra with hcontra
        exact hw0 hcontra
      · rw [List.getLast?_append_of_ne_nil _ hnil] at hcontra
        exact renderRest_getLast_ne l nl bw hn ps hps _ hcontra rfl
    rw [hall, hhead, hn]
    simp

theorem prefixFrags_ne_nl (l : Line) (nl : Newline)
    (hc : ∀ c, l.comment = some c → c ≠ nl.as_str) :
    ∀ f ∈ prefixFrags l, f ≠ nl.as_str := by
  intro f hf
  unfold prefixFrags at hf
  rcases List.mem_append.mp hf with hf | hf
  · rcases List.mem_append.mp hf with hf | hf
    · have := List.eq_of_mem_replicate hf
      subst this
      cases l.indent with
      | space n => exact Ne.symm (Newline.as_str_ne_space nl)
      | tab n => exact Ne.symm (Newline.as_str_ne_tab nl)
    · cases hcm : l.comment with
      | none => rw [hcm] at hf; simp at hf
      | some c =>
        rw [hcm] at hf
        simp at hf
        subst hf
        exact hc _ hcm
  · have := List.eq_of_mem_replicate hf
    subst this
    cases l.padding with
    | space n => exact Ne.symm (Newline.as_str_ne_space nl)
    | tab n => exact Ne.symm (Newline.as_str_ne_tab nl)

theorem contLead_ne_nl (l : Line) (nl : Newline) (bw : Nat)
    (hc : ∀ c, l.comment = some c → c ≠ nl.as_str) :
    ∀ f ∈ contLead l bw, f ≠ nl.as_str := by
  intro f hf
  unfold contLead at hf
  rcases List.mem_append.mp hf with hf | hf
  · exact prefixFrags_ne_nl l nl hc f hf
  · cases hbl : l.bullet with
    | none =>
      rw [hbl] at hf
      exact absurd hf (List.not_mem_nil f)
    | some b =>
      rw [hbl] at hf
      have := List.eq_of_mem_replicate hf
      subst this
      exact Ne.symm (Newline.as_str_ne_space nl)

theorem firstLead_ne_nl (l : Line) (nl : Newline)
    (hc : ∀ c, l.comment = some c → c ≠ nl.as_str)
    (hb : ∀ b, l.bullet = some b → b ≠ nl.as_str) :
    ∀ f ∈ firstLead l, f ≠ nl.as_str := by
  intro f hf
  unfold firstLead at hf
  rcases List.mem_append.mp hf with hf | hf
  · exact prefixFrags_ne_nl l nl hc f hf
  · cases hbl : l.bullet with
    | none =>
      rw [hbl] at hf
      exact absurd hf (List.not_mem_nil f)
    | some b =>
      rw [hbl] at hf
      simp at hf
      rcases hf with hf | hf
      · subst hf; exact hb _ hbl
      · subst hf; exact Ne.symm (Newline.as_str_ne_space nl)

theorem laterGroups_cons_shape :
    ∀ ps : List (Bool × String), ∀ g ∈ laterGroups ps, ∃ w g', g = w :: g' := by
  intro ps
  induction ps with
  | nil => intro g hg; simp [laterGroups] at hg
  | cons p ps ih =>
    intro g hg
    obtain ⟨d, w⟩ := p
    unfold laterGroups at hg
    cases d with
    | true =>
      simp at hg
      rcases hg with hg | hg
      · exact ⟨w, firstGroup ps, hg⟩
      · exact ih g hg
    | false =>
      simp at hg
      exact ih g hg

/-- Sub-line structure for a line with no words. -/
theorem outLines_lineWrap_nil {σ : Type} (S : Sauce σ) (wcjk : String → Nat)
    (toppings : Toppings) (l : Line) (hw : l.words = [])
    (hpre : ∀ f ∈ prefixFrags l ++
        (match l.bullet with | some b => [b] | none => []),
      f ≠ toppings.newline.as_str) :
    outLines toppings.newline.as_str (lineWrap S wcjk toppings l) =
      [prefixFrags l ++
        (match l.bullet with | some b => [b] | none => [])] := by
  have hfrag : lineWrap S wcjk toppings l =
      (prefixFrags l ++ (match l.bullet with | some b => [b] | none => []))
        ++ (if l.newline then [toppings.newline.as_str] else []) := by
    unfold lineWrap
    rw [hw]
  rw [hfrag]
  unfold outLines
  cases hn : l.newline with
  | true =>
    rw [if_pos ?side]
    case side =>
      rw [if_pos rfl, List.getLast?_concat]
    have hsplit : splitFrags toppings.newline.as_str
        [toppings.newline.as_str] = [] :: [[]] := by
      simp [splitFrags]
    rw [if_pos rfl, splitFrags_append _ hpre hsplit]
    simp
  | false =>
    rw [if_neg ?side]
    case side =>
      rw [if_neg (by simp), List.append_nil]
      intro hcontra
      exact hpre _ (List.mem_of_mem_getLast? hcontra) rfl
    have hsplit : splitFrags toppings.newline.as_str ([] : List String) =
        [] :: ([] : List (List String)) := by
      simp [splitFrags]
    rw [if_neg (by simp), splitFrags_append _ hpre hsplit]
    simp

/-- C2 (amended): every output sub-line of the wrapper begins with the
exact prefix indent, comment, padding.  When a bullet is present and the
line has words, the first sub-line continues with the bullet and exactly
one space, and every subsequent sub-line continues with
`width_cjk(bullet) + 1` spaces; when a bullet is present but the line has
no words, the bullet is emitted with no trailing space.  Without a bullet
no alignment spaces are added. -/
theorem wrapper_prefix_replication {σ : Type} (S : Sauce σ)
    (wcjk : String → Nat) (toppings : Toppings) (l : Line)
    (hc : ∀ c, l.comment = some c → c ≠ toppings.newline.as_str)
    (hb : ∀ b, l.bullet = some b → b ≠ toppings.newline.as_str)
    (hws : ∀ w ∈ l.words, w ≠ toppings.newline.as_str) :
    (∀ seg,
      (outLines toppings.newline.as_str
          (lineWrap S wcjk toppings l)).head? = some seg →
        ∃ tail, seg = prefixFrags l ++
          (match l.bullet, l.words with
            | some b, [] => [b]
            | some b, _ :: _ => [b, " "]
            | none, _ => []) ++ tail) ∧
    (∀ seg ∈ (outLines toppings.newline.as_str
        (lineWrap S wcjk toppings l)).tail,
      ∃ w tail, seg = (prefixFrags l ++
          (match l.bullet with
            | some _ => List.replicate (bulletWidth wcjk l) " "
            | none => [])) ++ w :: tail) := by
  match hw : l.words with
  | [] =>
    have hpre : ∀ f ∈ prefixFrags l ++
        (match l.bullet with | some b => [b] | none => []),
        f ≠ toppings.newline.as_str := by
      intro f hf
      rcases List.mem_append.mp hf with hf | hf
      · exact prefixFrags_ne_nl l toppings.newline hc f hf
      · cases hbl : l.bullet with
        | none => rw [hbl] at hf; simp at hf
        | some b =>
          rw [hbl] at hf; simp at hf; subst hf
          exact hb _ hbl
    rw [outLines_lineWrap_nil S wcjk toppings l hw hpre]
    constructor
    · intro seg hseg
      simp only [List.head?_cons, Option.some_inj] at hseg
      subst hseg
      refine ⟨[], ?_⟩
      cases l.bullet <;> simp
    · intro seg hseg
      simp at hseg
  | w0 :: rest =>
    have hrender := lineWrap_render S wcjk toppings l w0 rest hw
    generalize hZ : (sauceDecisions S l.words
        (S.should_break (S.prepare l.words (breakableWidth wcjk toppings l))
          l.words 0).2 1 rest).zip rest = ps at hrender
    have hps : ∀ p ∈ ps, p.2 ≠ toppings.newline.as_str := by
      intro p hp
      rw [← hZ] at hp
      have := (List.of_mem_zip hp).2
      exact hws p.2 (by rw [hw]; simp [this])
    have hout := outLines_render l toppings.newline (bulletWidth wcjk l) w0
      (contLead_ne_nl l toppings.newline (bulletWidth wcjk l) hc)
      (firstLead_ne_nl l toppings.newline hc hb)
      (hws w0 (by rw [hw]; simp))
      ps hps
    rw [hrender, hout]
    constructor
    · intro seg hseg
      simp only [List.head?_cons, Option.some_inj] at hseg
      subst hseg
      refine ⟨spacedFrags (w0 :: firstGroup ps), ?_⟩
      unfold firstLead
      cases l.bullet <;> simp
    · intro seg hseg
      simp only [List.tail_cons] at hseg
      obtain ⟨g, hg, hseg⟩ := List.mem_map.mp hseg
      obtain ⟨w, g', hgshape⟩ := laterGroups_cons_shape _ g hg
      subst hgshape
      refine ⟨w, leadingSpaced g', ?_⟩
      rw [← hseg]
      unfold contLead
      rw [spacedFrags_cons]

/-- Counterexample to C2 as stated: for the input `"-"` the merged logical
line has a bullet and no words; its only output sub-line is the bare
bullet, which does not continue with a space after the bullet. -/
theorem wrapper_bullet_space_counterexample :
    outLines "\n" (wrap (guacamole (fun w => w.length)) (fun w => w.length)
        { tabs := 4, width := 80, newline := .LF } ["-"]) = [["-"]] ∧
    ¬ ∃ tail : List String, ["-"] = ["-", " "] ++ tail := by
  constructor
  · decide
  · rintro ⟨tail, h⟩
    simp at h

/-- Witness for the amended C2 at a concrete bulleted line wrapped at
width 1 (which forces a break before the second word). -/
theorem wrapper_prefix_replication_witness :
    (∀ seg,
      (outLines (Newline.LF).as_str
          (lineWrap (guacamole (fun w : String => w.length))
            (fun w : String => w.length)
            { tabs := 4, width := 1, newline := .LF }
            { indent := .space 0, comment := none, padding := .space 0,
              bullet := some "-", words := ["a", "b"],
              newline := false })).head? = some seg →
        ∃ tail, seg = prefixFrags
            { indent := .space 0, comment := none, padding := .space 0,
              bullet := some "-", words := ["a", "b"], newline := false } ++
          (match (some "-" : Option String), (["a", "b"] : List String) with
            | some b, [] => [b]
            | some b, _ :: _ => [b, " "]
            | none, _ => []) ++ tail) ∧
    (∀ seg ∈ (outLines (Newline.LF).as_str
        (lineWrap (guacamole (fun w : String => w.length))
          (fun w : String => w.length)
          { tabs := 4, width := 1, newline := .LF }
          { indent := .space 0, comment := none, padding := .space 0,
            bullet := some "-", words := ["a", "b"],
            newline := false })).tail,
      ∃ w tail, seg = (prefixFrags
          { indent := .space 0, comment := none, padding := .space 0,
            bullet := some "-", words := ["a", "b"], newline := false } ++
        List.replicate (bulletWidth (fun w : String => w.length)
          { indent := .space 0, comment := none, padding := .space 0,
            bullet := some "-", words := ["a", "b"], newline := false }) " ")
        ++ w :: tail) :=
  wrapper_prefix_replication (guacamole (fun w : String => w.length))
    (fun w : String => w.length)
    { tabs := 4, width := 1, newline := .LF }
    { indent := .space 0, comment := none, padding := .space 0,
      bullet := some "-", words := ["a", "b"], newline := false }
    (by intro c h; simp at h)
    (by intro b h; injection h with h; subst h; decide)
    (by intro w hw; simp at hw; rcases hw with rfl | rfl <;> decide)

theorem getD_set_ne {α : Type} (l : List α) {i j : Nat} (a d : α) (h : i ≠ j) :
    (l.set i a).getD j d = l.getD j d := by
  simp [List.getD, List.getElem?_set_ne h]

theorem getD_set_self {α : Type} (l : List α) {i : Nat} (a d : α)
    (h : i < l.length) : (l.set i a).getD i d = a := by
  simp [List.getD, List.getElem?_set_self, h]

theorem drop_cons_getD {α : Type} {l : List α} {i : Nat} {w : α} {rest : List α}
    (h : l.drop i = w :: rest) (d : α) :
    l.getD i d = w ∧ l.drop (i + 1) = rest ∧ i < l.length := by
  refine ⟨?_, ?_, ?_⟩
  · have h1 : l[i]? = some w := by
      rw [← List.head?_drop, h]
      rfl
    simp [List.getD, h1]
  · rw [← List.tail_drop, h]
    rfl
  · by_contra hcontra
    have : l.drop i = [] := List.drop_eq_nil_of_le (by omega)
    rw [this] at h
    exact List.noConfusion h

theorem sum_map_take_le {α : Type} (f : α → Nat) (l : List α) (i : Nat) :
    ((l.take i).map f).sum ≤ (l.map f).sum := by
  conv_rhs => rw [← List.take_append_drop i l]
  rw [List.map_append, List.sum_append]
  omega

theorem length_le_sum_map {α : Type} (f : α → Nat) :
    ∀ l : List α, (∀ x ∈ l, 1 ≤ f x) → l.length ≤ (l.map f).sum := by
  intro l
  induction l with
  | nil => simp
  | cons x l ih =>
    intro h
    have hx := h x (by simp)
    have hl := ih (fun y hy => h y (by simp [hy]))
    simp only [List.map_cons, List.sum_cons, List.length_cons]
    omega

theorem groupWidth_take_le (wcjk : String → Nat) (words : List String)
    (i : Nat) : groupWidth wcjk (words.take i) ≤ groupWidth wcjk words := by
  unfold groupWidth
  have h1 := sum_map_take_le wcjk words i
  have h2 : (words.take i).length ≤ words.length := by
    simp [List.length_take]
  omega

theorem groupWidth_take_succ (wcjk : String → Nat) (words : List String)
    {i : Nat} (hi : i < words.length) (h1 : 1 ≤ i) :
    groupWidth wcjk (words.take (i + 1)) =
      groupWidth wcjk (words.take i) + wcjk (words.getD i "") + 1 := by
  have htake : words.take (i + 1) = words.take i ++ [words.getD i ""] := by
    rw [List.take_succ]
    congr 1
    have : words[i]? = some (words.getD i "") := by
      simp [List.getD, List.getElem?_eq_getElem hi]
    rw [this]
    rfl
  rw [htake]
  unfold groupWidth
  have hlen : (words.take i).length = i := List.length_take_of_le (by omega)
  have hsum : 1 ≤ ((words.take i).map wcjk).sum + (words.take i).length ∨
      True := Or.inr trivial
  simp only [List.map_append, List.sum_append, List.length_append,
    List.map_cons, List.map_nil, List.sum_cons, List.sum_nil,
    List.length_cons, List.length_nil]
  omega

theorem groupWidth_pos_of_take (wcjk : String → Nat) (words : List String)
    {i : Nat} (h1 : 1 ≤ i) (hi : i ≤ words.length)
    (hpos : ∀ w ∈ words, 0 < wcjk w) :
    0 < groupWidth wcjk (words.take i) := by
  unfold groupWidth
  have hlen : (words.take i).length = i := List.length_take_of_le hi
  have hsum : (words.take i).length ≤ ((words.take i).map wcjk).sum :=
    length_le_sum_map wcjk (words.take i)
      (fun w hw => hpos w (List.mem_of_mem_take hw))
  omega

/-- Under the fit condition and positive word widths, the first-fit
strategy never breaks after the first word. -/
theorem guac_decisions_fit (wcjk : String → Nat) (words : List String)
    (max : Nat) (hpos : ∀ w ∈ words, 0 < wcjk w)
    (hfit : groupWidth wcjk words ≤ max) :
    ∀ (rest : List String) (i : Nat), 1 ≤ i → words.drop i = rest →
      sauceDecisions (guacamole wcjk) words
        { max := max, width := groupWidth wcjk (words.take i) } i rest =
      List.replicate rest.length false := by
  intro rest
  induction rest with
  | nil => intro i _ _; rfl
  | cons w rest ih =>
    intro i h1 hdrop
    obtain ⟨hgetd, hdrop', hilt⟩ := drop_cons_getD hdrop ""
    have hW : 0 < groupWidth wcjk (words.take i) :=
      groupWidth_pos_of_take wcjk words h1 (by omega) hpos
    have hsucc := groupWidth_take_succ wcjk words hilt h1
    have hstep : groupWidth wcjk (words.take (i + 1)) ≤ max :=
      le_trans (groupWidth_take_le wcjk words (i + 1)) hfit
    have hlt : groupWidth wcjk (words.take i) + wcjk (words.getD i "") < max := by
      omega
    have hbr : (guacamole wcjk).should_break
        { max := max, width := groupWidth wcjk (words.take i) } words i =
        (false, { max := max, width := groupWidth wcjk (words.take (i + 1)) }) := by
      show (if groupWidth wcjk (words.take i) = 0 then _
        else if groupWidth wcjk (words.take i) + wcjk (words.getD i "") < max
        then _ else _) = _
      rw [if_neg (by omega), if_pos hlt]
      rw [hsucc]
    show sauceDecisions (guacamole wcjk) words _ i (w :: rest) = _
    rw [sauceDecisions, hbr]
    show false :: sauceDecisions (guacamole wcjk) words _ (i + 1) rest = _
    rw [ih (i + 1) (by omega) hdrop']
    rfl

theorem guac_first_step (wcjk : String → Nat) (words : List String)
    (max : Nat) (w0 : String) (rest : List String) (h : words = w0 :: rest) :
    (guacamole wcjk).should_break { max := max, width := 0 } words 0 =
      (true, { max := max, width := groupWidth wcjk (words.take 1) }) := by
  subst h
  have hgw : groupWidth wcjk ((w0 :: rest).take 1) = wcjk w0 := by
    simp [groupWidth]
  rw [hgw]
  simp [guacamole, List.getD]

theorem salsaOffsetsFrom_length (wcjk : String → Nat) :
    ∀ (ws : List String) (acc : Nat),
      (salsaOffsetsFrom wcjk acc ws).length = ws.length + 1 := by
  intro ws
  induction ws with
  | nil => intro acc; rfl
  | cons w ws ih =>
    intro acc
    simp [salsaOffsetsFrom, ih]

theorem salsaOffsetsFrom_getD (wcjk : String → Nat) :
    ∀ (ws : List String) (acc i : Nat), i ≤ ws.length →
      (salsaOffsetsFrom wcjk acc ws).getD i 0 =
        acc + ((ws.take i).map wcjk).sum := by
  intro ws
  induction ws with
  | nil =>
    intro acc i hi
    have : i = 0 := by simpa using hi
    subst this
    simp [salsaOffsetsFrom]
  | cons w ws ih =>
    intro acc i hi
    match i with
    | 0 => simp [salsaOffsetsFrom]
    | k + 1 =>
      show (salsaOffsetsFrom wcjk (acc + wcjk w) ws).getD k 0 = _
      rw [ih (acc + wcjk w) k (by simpa using hi)]
      simp [Nat.add_assoc]

theorem salsaOffsets_getD (wcjk : String → Nat) (words : List String)
    {i : Nat} (h : i ≤ words.length) :
    (salsaOffsets wcjk words).getD i 0 = ((words.take i).map wcjk).sum := by
  have := salsaOffsetsFrom_getD wcjk words 0 i h
  simpa [salsaOffsets] using this

theorem getD_replicate {α : Type} (a d : α) {k j : Nat} (h : j < k) :
    (List.replicate k a).getD j d = a := by
  have : (List.replicate k a)[j]? = some a := by
    rw [List.getElem?_eq_getElem (by simpa using h)]
    simp
  simp [List.getD, this]

/-- The line length computed by the inner loop for start node 0 is the
group width of the first `e` words. -/
theorem ll_from_zero (wcjk : String → Nat) (words : List String) {e : Nat}
    (h1 : 1 ≤ e) (h2 : e ≤ words.length) :
    salsaLL (salsaOffsets wcjk words) 0 e = groupWidth wcjk (words.take e) := by
  unfold salsaLL
  rw [salsaOffsets_getD wcjk words h2, salsaOffsets_getD wcjk words (by omega)]
  have hlen : (words.take e).length = e := List.length_take_of_le h2
  unfold groupWidth
  simp only [List.take_zero, List.map_nil, List.sum_nil, hlen]
  omega

theorem salsaInner_zero_fit (wcjk : String → Nat) (words : List String)
    (max : Nat)
    (hfit : ∀ e, 1 ≤ e → e ≤ words.length →
      groupWidth wcjk (words.take e) ≤ max) :
    ∀ (steps e : Nat) (m : List (Nat × Nat)),
      1 ≤ e → e ≤ words.length → e + steps = words.length + 1 →
      m.getD 0 (0, 0) = (0, 0) →
      (m.getD words.length (0, 0)).2 = USIZE_MAX →
      words.length < m.length →
      (salsaInner max words.length (salsaOffsets wcjk words) 0 steps e
          m).getD words.length (0, 0) = (0, 0) := by
  intro steps
  induction steps with
  | zero => intro e m he hen hsum _ _ _; omega
  | succ steps ih =>
    intro e m he hen hsum h0 hn hlen
    have hll := ll_from_zero wcjk words he hen
    have hfite := hfit e he hen
    rw [salsaInner]
    rw [if_neg (by
      intro hcontra
      rw [hll] at hcontra
      omega)]
    by_cases hend : e = words.length
    · subst hend
      have hsteps : steps = 0 := by omega
      subst hsteps
      have hcost : salsaCost max words.length (salsaOffsets wcjk words) 0
          words.length m = 0 := by
        unfold salsaCost salsaPenalty
        rw [h0, if_neg (by simp)]
      rw [hcost]
      rw [if_pos (by rw [hn]; show 0 < USIZE_MAX; decide)]
      show ((m.set words.length (0, 0)).getD words.length (0, 0)) = (0, 0)
      rw [getD_set_self m _ _ (by omega)]
    · by_cases hrel : salsaCost max words.length (salsaOffsets wcjk words) 0
          e m < (m.getD e (0, 0)).2
      · rw [if_pos hrel]
        apply ih (e + 1) _ (by omega) (by omega) (by omega)
        · rw [getD_set_ne m _ _ (by omega)]
          exact h0
        · rw [getD_set_ne m _ _ (by omega)]
          exact hn
        · rw [List.length_set]
          exact hlen
      · rw [if_neg hrel]
        exact ih (e + 1) m (by omega) (by omega) (by omega) h0 hn hlen

theorem salsaInner_preserve_n (max n : Nat) (offs : List Nat) (start : Nat) :
    ∀ (steps e : Nat) (m : List (Nat × Nat)), (m.getD n (0, 0)).2 = 0 →
      (salsaInner max n offs start steps e m).getD n (0, 0) =
        m.getD n (0, 0) := by
  intro steps
  induction steps with
  | zero => intro e m _; rfl
  | succ steps ih =>
    intro e m hm
    rw [salsaInner]
    by_cases hbrk : salsaLL offs start e > max ∧ e ≠ start + 1
    · rw [if_pos hbrk]
    · rw [if_neg hbrk]
      by_cases hend : e = n
      · subst hend
        rw [if_neg (by
          intro hcontra
          rw [hm] at hcontra
          omega)]
        exact ih (e + 1) m hm
      · by_cases hrel : salsaCost max n offs start e m < (m.getD e (0, 0)).2
        · rw [if_pos hrel]
          rw [ih (e + 1) _ (by
            rw [getD_set_ne m _ _ (fun hcontra => hend hcontra)]
            exact hm)]
          rw [getD_set_ne m _ _ (fun hcontra => hend hcontra)]
        · rw [if_neg hrel]
          exact ih (e + 1) m hm

theorem salsaOuter_preserve_n (max n : Nat) (offs : List Nat) :
    ∀ (steps start : Nat) (m : List (Nat × Nat)), (m.getD n (0, 0)).2 = 0 →
      (salsaOuter max n offs steps start m).getD n (0, 0) =
        m.getD n (0, 0) := by
  intro steps
  induction steps with
  | zero => intro start m _; rfl
  | succ steps ih =>
    intro start m hm
    show (salsaOuter max n offs steps (start + 1)
        (salsaInner max n offs start (n - start) (start + 1) m)).getD n (0, 0) = _
    have hinner := salsaInner_preserve_n max n offs start (n - start)
      (start + 1) m hm
    rw [ih (start + 1) _ (by rw [hinner]; rw [hm])]
    exact hinner

theorem backtrack_zero (m : List (Nat × Nat)) :
    ∀ fuel, backtrack m fuel 0 = [0] := by
  intro fuel
  cases fuel with
  | zero => rfl
  | succ fuel => simp [backtrack]

/-- Under the fit condition the optimal-fit strategy computes the break
set `{0}`. -/
theorem salsaPrepare_fit (wcjk : String → Nat) (words : List String)
    (max : Nat) (hne : words ≠ [])
    (hfit : groupWidth wcjk words ≤ max) :
    salsaPrepare wcjk words max = [0] := by
  have hn : 1 ≤ words.length := by
    cases words with
    | nil => exact absurd rfl hne
    | cons w ws => simp
  have hfit' : ∀ e, 1 ≤ e → e ≤ words.length →
      groupWidth wcjk (words.take e) ≤ max :=
    fun e h1 h2 => le_trans (groupWidth_take_le wcjk words e) hfit
  have hm0len : ((0, 0) :: List.replicate words.length
      ((0 : Nat), USIZE_MAX)).length = words.length + 1 := by
    simp
  have hm0zero : (((0, 0) :: List.replicate words.length
      ((0 : Nat), USIZE_MAX)) : List (Nat × Nat)).getD 0 (0, 0) = (0, 0) := rfl
  have hm0n : ((((0, 0) :: List.replicate words.length
      ((0 : Nat), USIZE_MAX)) : List (Nat × Nat)).getD words.length
        (0, 0)).2 = USIZE_MAX := by
    match hcase : words.length with
    | 0 => omega
    | k + 1 =>
      show ((List.replicate (k + 1) ((0 : Nat), USIZE_MAX)).getD k (0, 0)).2 = _
      rw [getD_replicate _ _ (by omega)]
  have hinner : (salsaInner max words.length (salsaOffsets wcjk words) 0
      words.length 1 ((0, 0) :: List.replicate words.length
        ((0 : Nat), USIZE_MAX))).getD words.length (0, 0) = (0, 0) :=
    salsaInner_zero_fit wcjk words max hfit' words.length 1 _
      (le_refl 1) hn (by omega) rfl hm0n (by simp)
  have hpeel : salsaOuter max words.length (salsaOffsets wcjk words)
      words.length 0 ((0, 0) :: List.replicate words.length
        ((0 : Nat), USIZE_MAX)) =
      salsaOuter max words.length (salsaOffsets wcjk words)
        (words.length - 1) 1
        (salsaInner max words.length (salsaOffsets wcjk words) 0
          words.length 1 ((0, 0) :: List.replicate words.length
            ((0 : Nat), USIZE_MAX))) := by
    obtain ⟨k, hk⟩ : ∃ k, words.length = k + 1 := ⟨words.length - 1, by omega⟩
    conv_lhs => rw [hk]
    conv_rhs => rw [hk]
    rfl
  have houter : (salsaOuter max words.length (salsaOffsets wcjk words)
      words.length 0 ((0, 0) :: List.replicate words.length
        ((0 : Nat), USIZE_MAX))).getD words.length (0, 0) = (0, 0) := by
    rw [hpeel]
    rw [salsaOuter_preserve_n max words.length _ (words.length - 1) 1 _
      (by rw [hinner])]
    exact hinner
  show (backtrack (salsaOuter max words.length (salsaOffsets wcjk words)
      words.length 0 ((0, 0) :: List.replicate words.length
        ((0 : Nat), USIZE_MAX))) words.length words.length).drop 1 = [0]
  obtain ⟨k, hk⟩ : ∃ k, words.length = k + 1 := ⟨words.length - 1, by omega⟩
  rw [hk] at houter ⊢
  rw [backtrack, if_neg (by omega), houter]
  show ((k + 1) :: backtrack _ k 0).drop 1 = [0]
  rw [backtrack_zero]
  rfl

theorem salsa_decisions_singleton (wcjk : String → Nat) (words : List String) :
    ∀ (rest : List String) (i : Nat), 1 ≤ i →
      sauceDecisions (salsa wcjk) words [0] i rest =
        List.replicate rest.length false := by
  intro rest
  induction rest with
  | nil => intro i _; rfl
  | cons w rest ih =>
    intro i hi
    have hc : (([0] : List Nat).contains i) = false := by
      match i, hi with
      | k + 1, _ => rfl
    show (([0] : List Nat).contains i) ::
      sauceDecisions (salsa wcjk) words [0] (i + 1) rest = _
    rw [hc, ih (i + 1) (by omega)]
    rfl

/-- C7 (amended): when every word of the merged paragraph has positive
display width and the total width (word widths plus one space between each
adjacent pair) fits within the breakable budget, first-fit and optimal-fit
emit identical fragment sequences. -/
theorem strategy_agreement_fit (wcjk : String → Nat) (toppings : Toppings)
    (l : Line)
    (hpos : ∀ w ∈ l.words, 0 < wcjk w)
    (hfit : groupWidth wcjk l.words ≤ breakableWidth wcjk toppings l) :
    lineWrap (guacamole wcjk) wcjk toppings l =
      lineWrap (salsa wcjk) wcjk toppings l := by
  match hw : l.words with
  | [] =>
    unfold lineWrap
    rw [hw]
  | w0 :: rest =>
    rw [lineWrap_render (guacamole wcjk) wcjk toppings l w0 rest hw,
      lineWrap_render (salsa wcjk) wcjk toppings l w0 rest hw]
    congr 1
    have hguac : sauceDecisions (guacamole wcjk) l.words
        ((guacamole wcjk).should_break
          ((guacamole wcjk).prepare l.words (breakableWidth wcjk toppings l))
          l.words 0).2 1 rest = List.replicate rest.length false := by
      rw [show (guacamole wcjk).prepare l.words
          (breakableWidth wcjk toppings l) =
        { max := breakableWidth wcjk toppings l, width := 0 } from rfl]
      rw [guac_first_step wcjk l.words (breakableWidth wcjk toppings l) w0
        rest hw]
      exact guac_decisions_fit wcjk l.words (breakableWidth wcjk toppings l)
        hpos hfit rest 1 (le_refl 1) (by rw [hw]; rfl)
    have hsalsa : sauceDecisions (salsa wcjk) l.words
        ((salsa wcjk).should_break
          ((salsa wcjk).prepare l.words (breakableWidth wcjk toppings l))
          l.words 0).2 1 rest = List.replicate rest.length false := by
      have hprep : salsaPrepare wcjk l.words
          (breakableWidth wcjk toppings l) = [0] :=
        salsaPrepare_fit wcjk l.words (breakableWidth wcjk toppings l)
          (by rw [hw]; simp) hfit
      rw [show (salsa wcjk).prepare l.words
          (breakableWidth wcjk toppings l) =
        salsaPrepare wcjk l.words (breakableWidth wcjk toppings l) from rfl]
      rw [hprep]
      exact salsa_decisions_singleton wcjk l.words rest 1 (le_refl 1)
    rw [hguac, hsalsa]

/-- Counterexample to C7 as stated: with a zero-display-width word (for
example a lone combining accent, whose CJK width is 0), a paragraph that
fits on one line is still split by first-fit (its running width stays 0, so
the second word takes the first-word branch and breaks) while optimal-fit
keeps one line. -/
theorem strategy_agreement_counterexample :
    (groupWidth (fun w => if w = "́" then 0 else w.length)
        ["́", "x"] ≤
      breakableWidth (fun w => if w = "́" then 0 else w.length)
        { tabs := 4, width := 10, newline := .LF }
        { indent := .space 0, comment := none, padding := .space 0,
          bullet := none, words := ["́", "x"], newline := true }) ∧
    lineWrap (guacamole (fun w => if w = "́" then 0 else w.length))
        (fun w => if w = "́" then 0 else w.length)
        { tabs := 4, width := 10, newline := .LF }
        { indent := .space 0, comment := none, padding := .space 0,
          bullet := none, words := ["́", "x"], newline := true } ≠
      lineWrap (salsa (fun w => if w = "́" then 0 else w.length))
        (fun w => if w = "́" then 0 else w.length)
        { tabs := 4, width := 10, newline := .LF }
        { indent := .space 0, comment := none, padding := .space 0,
          bullet := none, words := ["́", "x"], newline := true } := by
  decide

/-- Witness for the amended C7 at a concrete fitting paragraph. -/
theorem strategy_agreement_fit_witness :
    lineWrap (guacamole (fun w : String => w.length))
        (fun w : String => w.length)
        { tabs := 4, width := 10, newline := .LF }
        { indent := .space 0, comment := none, padding := .space 0,
          bullet := none, words := ["ab", "cd"], newline := true } =
      lineWrap (salsa (fun w : String => w.length))
        (fun w : String => w.length)
        { tabs := 4, width := 10, newline := .LF }
        { indent := .space 0, comment := none, padding := .space 0,
          bullet := none, words := ["ab", "cd"], newline := true } :=
  strategy_agreement_fit (fun w : String => w.length)
    { tabs := 4, width := 10, newline := .LF }
    { indent := .space 0, comment := none, padding := .space 0,
      bullet := none, words := ["ab", "cd"], newline := true }
    (by intro w hw; simp at hw; rcases hw with rfl | rfl <;> decide)
    (by decide)

theorem fragWidth_word (toppings : Toppings) (wcjk : String → Nat)
    {w : String} (h : NotSeparator w) :
    fragWidth toppings wcjk w = wcjk w := by
  obtain ⟨h1, h2, h3, h4⟩ := h
  unfold fragWidth
  rw [if_neg h1, if_neg h2, if_neg (by simp [h3, h4])]

theorem fragsWidth_append (toppings : Toppings) (wcjk : String → Nat)
    (a b : List String) :
    fragsWidth toppings wcjk (a ++ b) =
      fragsWidth toppings wcjk a + fragsWidth toppings wcjk b := by
  unfold fragsWidth
  rw [List.map_append, List.sum_append]

theorem fragsWidth_replicate_ws (toppings : Toppings) (wcjk : String → Nat)
    (n : Nat) (ws : Whitespace) :
    fragsWidth toppings wcjk (List.replicate n ws.as_str) =
      n * fragWidth toppings wcjk ws.as_str := by
  unfold fragsWidth
  rw [List.map_replicate, List.sum_replicate, smul_eq_mul]

theorem fragsWidth_prefixFrags (toppings : Toppings) (wcjk : String → Nat)
    (l : Line) (hc : ∀ c, l.comment = some c → NotSeparator c) :
    fragsWidth toppings wcjk (prefixFrags l) =
      whitespaceWidth toppings l.indent +
        (match l.comment with | some c => wcjk c | none => 0) +
        whitespaceWidth toppings l.padding := by
  unfold prefixFrags
  rw [fragsWidth_append, fragsWidth_append, fragsWidth_replicate_ws,
    fragsWidth_replicate_ws]
  have hind : l.indent.count * fragWidth toppings wcjk l.indent.as_str =
      whitespaceWidth toppings l.indent := by
    cases l.indent with
    | space n =>
      show n * fragWidth toppings wcjk " " = n
      rw [show fragWidth toppings wcjk " " = 1 from rfl]
      omega
    | tab n =>
      show n * fragWidth toppings wcjk "\t" = toppings.tabs * n
      rw [show fragWidth toppings wcjk "\t" = toppings.tabs from by
        unfold fragWidth
        rw [if_neg (by decide), if_pos rfl]]
      exact Nat.mul_comm n toppings.tabs
  have hpad : l.padding.count * fragWidth toppings wcjk l.padding.as_str =
      whitespaceWidth toppings l.padding := by
    cases l.padding with
    | space n =>
      show n * fragWidth toppings wcjk " " = n
      rw [show fragWidth toppings wcjk " " = 1 from rfl]
      omega
    | tab n =>
      show n * fragWidth toppings wcjk "\t" = toppings.tabs * n
      rw [show fragWidth toppings wcjk "\t" = toppings.tabs from by
        unfold fragWidth
        rw [if_neg (by decide), if_pos rfl]]
      exact Nat.mul_comm n toppings.tabs
  have hcm : fragsWidth toppings wcjk
      (match l.comment with | some c => [c] | none => []) =
      (match l.comment with | some c => wcjk c | none => 0) := by
    cases hcc : l.comment with
    | none => rfl
    | some c =>
      show fragsWidth toppings wcjk [c] = wcjk c
      unfold fragsWidth
      simp [fragWidth_word toppings wcjk (hc c hcc)]
  rw [hind, hpad, hcm]

theorem fragsWidth_firstLead (toppings : Toppings) (wcjk : String → Nat)
    (l : Line) (hc : ∀ c, l.comment = some c → NotSeparator c)
    (hb : ∀ b, l.bullet = some b → NotSeparator b) :
    fragsWidth toppings wcjk (firstLead l) =
      unbreakableWidth wcjk toppings l := by
  unfold firstLead unbreakableWidth
  rw [fragsWidth_append, fragsWidth_prefixFrags toppings wcjk l hc]
  have hbl : fragsWidth toppings wcjk
      (match l.bullet with | some b => [b, " "] | none => []) =
      bulletWidth wcjk l := by
    unfold bulletWidth
    cases hbb : l.bullet with
    | none => rfl
    | some b =>
      show fragsWidth toppings wcjk [b, " "] = wcjk b + 1
      unfold fragsWidth
      simp only [List.map_cons, List.map_nil, List.sum_cons, List.sum_nil]
      rw [fragWidth_word toppings wcjk (hb b hbb),
        show fragWidth toppings wcjk " " = 1 from rfl]
      omega
  omega

theorem fragsWidth_contLead (toppings : Toppings) (wcjk : String → Nat)
    (l : Line) (hc : ∀ c, l.comment = some c → NotSeparator c) :
    fragsWidth toppings wcjk (contLead l (bulletWidth wcjk l)) =
      unbreakableWidth wcjk toppings l := by
  unfold contLead unbreakableWidth
  rw [fragsWidth_append, fragsWidth_prefixFrags toppings wcjk l hc]
  have hbl : fragsWidth toppings wcjk
      (match l.bullet with
        | some _ => List.replicate (bulletWidth wcjk l) " "
        | none => []) = bulletWidth wcjk l := by
    cases hbb : l.bullet with
    | none =>
      show (0 : Nat) = bulletWidth wcjk l
      unfold bulletWidth
      rw [hbb]
    | some b =>
      show fragsWidth toppings wcjk
        (List.replicate (bulletWidth wcjk l) " ") = bulletWidth wcjk l
      unfold fragsWidth
      rw [List.map_replicate, List.sum_replicate, smul_eq_mul,
        show fragWidth toppings wcjk " " = 1 from rfl]
      omega
  omega

theorem fragsWidth_spacedFrags (toppings : Toppings) (wcjk : String → Nat) :
    ∀ g : List String, (∀ w ∈ g, NotSeparator w) →
      fragsWidth toppings wcjk (spacedFrags g) = groupWidth wcjk g := by
  intro g
  induction g with
  | nil => intro _; rfl
  | cons w g ih =>
    intro hg
    have hw := hg w (by simp)
    have hg' : ∀ w ∈ g, NotSeparator w := fun w hw => hg w (by simp [hw])
    rw [spacedFrags_cons]
    match g with
    | [] =>
      show fragsWidth toppings wcjk [w] = groupWidth wcjk [w]
      unfold fragsWidth groupWidth
      simp [fragWidth_word toppings wcjk hw]
    | w' :: g' =>
      have hrec := ih hg'
      rw [spacedFrags_cons] at hrec
      show fragsWidth toppings wcjk (w :: " " :: w' :: leadingSpaced g') = _
      have h1 : fragsWidth toppings wcjk (w :: " " :: w' :: leadingSpaced g') =
          wcjk w + 1 + fragsWidth toppings wcjk (w' :: leadingSpaced g') := by
        unfold fragsWidth
        simp only [List.map_cons, List.sum_cons]
        rw [fragWidth_word toppings wcjk hw,
          show fragWidth toppings wcjk " " = 1 from rfl]
        omega
      rw [h1, hrec]
      unfold groupWidth
      have hlen : 1 ≤ ((w' :: g').map wcjk).sum + (w' :: g').length := by
        simp
        omega
      simp only [List.map_cons, List.sum_cons, List.length_cons]
      omega

theorem mem_of_mem_firstGroup :
    ∀ (ps : List (Bool × String)) (w : String),
      w ∈ firstGroup ps → ∃ p ∈ ps, p.2 = w := by
  intro ps
  induction ps with
  | nil => intro w hw; simp [firstGroup] at hw
  | cons p ps ih =>
    intro w hw
    obtain ⟨d, w'⟩ := p
    cases d with
    | true => simp [firstGroup] at hw
    | false =>
      simp only [firstGroup, if_neg Bool.false_ne_true, List.mem_cons] at hw
      rcases hw with rfl | hw
      · exact ⟨(false, w), by simp⟩
      · obtain ⟨p, hp, hpw⟩ := ih w hw
        exact ⟨p, by simp [hp], hpw⟩

theorem mem_of_mem_laterGroups :
    ∀ (ps : List (Bool × String)) (g : List String),
      g ∈ laterGroups ps → ∀ w ∈ g, ∃ p ∈ ps, p.2 = w := by
  intro ps
  induction ps with
  | nil => intro g hg; simp [laterGroups] at hg
  | cons p ps ih =>
    intro g hg w hw
    obtain ⟨d, w'⟩ := p
    cases d with
    | true =>
      rcases List.mem_cons.mp hg with rfl | hg
      · rcases List.mem_cons.mp hw with rfl | hw
        · exact ⟨(true, w), by simp⟩
        · obtain ⟨p, hp, hpw⟩ := mem_of_mem_firstGroup ps w hw
          exact ⟨p, by simp [hp], hpw⟩
      · obtain ⟨p, hp, hpw⟩ := ih g hg w hw
        exact ⟨p, by simp [hp], hpw⟩
    | false =>
      obtain ⟨p, hp, hpw⟩ := ih g hg w hw
      exact ⟨p, by simp [hp], hpw⟩

/-- The width bound for the sub-lines of one wrapped line, given that every
word group chosen by the strategy is good. -/
theorem subline_width_of_goodGroups (toppings : Toppings)
    (wcjk : String → Nat) (l : Line) (w0 : String)
    (ps : List (Bool × String))
    (hub : unbreakableWidth wcjk toppings l ≤ toppings.width)
    (hc : ∀ c, l.comment = some c → NotSeparator c)
    (hb : ∀ b, l.bullet = some b → NotSeparator b)
    (hwords : ∀ w, (w = w0 ∨ ∃ p ∈ ps, p.2 = w) → NotSeparator w)
    (hfirst : GoodGroup wcjk (breakableWidth wcjk toppings l)
      (w0 :: firstGroup ps))
    (hlater : ∀ g ∈ laterGroups ps,
      GoodGroup wcjk (breakableWidth wcjk toppings l) g) :
    ∀ seg ∈ (firstLead l ++ spacedFrags (w0 :: firstGroup ps)) ::
        (laterGroups ps).map
          (fun g => contLead l (bulletWidth wcjk l) ++ spacedFrags g),
      fragsWidth toppings wcjk seg ≤ toppings.width ∨
        ∃ w, breakableWidth wcjk toppings l < wcjk w ∧
          (seg = firstLead l ++ [w] ∨
            seg = contLead l (bulletWidth wcjk l) ++ [w]) := by
  intro seg hseg
  rcases List.mem_cons.mp hseg with rfl | hseg
  · -- the first sub-line
    have hgw : ∀ w ∈ w0 :: firstGroup ps, NotSeparator w := by
      intro w hw
      rcases List.mem_cons.mp hw with rfl | hw
      · exact hwords w (Or.inl rfl)
      · exact hwords w (Or.inr (mem_of_mem_firstGroup ps w hw))
    rw [fragsWidth_append, fragsWidth_firstLead toppings wcjk l hc hb,
      fragsWidth_spacedFrags toppings wcjk _ hgw]
    rcases hfirst with hfit | ⟨w, hwg⟩
    · left
      unfold breakableWidth at hfit
      omega
    · by_cases hover : breakableWidth wcjk toppings l < wcjk w
      · right
        exact ⟨w, hover, Or.inl (by rw [hwg]; rfl)⟩
      · left
        rw [hwg]
        have : groupWidth wcjk [w] = wcjk w := by
          unfold groupWidth
          simp
        rw [this]
        unfold breakableWidth at hover
        omega
  · -- a continuation sub-line
    obtain ⟨g, hg, rfl⟩ := List.mem_map.mp hseg
    have hgw : ∀ w ∈ g, NotSeparator w :=
      fun w hw => hwords w (Or.inr (mem_of_mem_laterGroups ps g hg w hw))
    rw [fragsWidth_append, fragsWidth_contLead toppings wcjk l hc,
      fragsWidth_spacedFrags toppings wcjk _ hgw]
    rcases hlater g hg with hfit | ⟨w, hwg⟩
    · left
      unfold breakableWidth at hfit
      omega
    · by_cases hover : breakableWidth wcjk toppings l < wcjk w
      · right
        exact ⟨w, hover, Or.inr (by rw [hwg]; rfl)⟩
      · left
        rw [hwg]
        have : groupWidth wcjk [w] = wcjk w := by
          unfold groupWidth
          simp
        rw [this]
        unfold breakableWidth at hover
        omega

theorem groupWidth_append_singleton (wcjk : String → Nat) (cur : List String)
    (w : String) (h : cur ≠ []) :
    groupWidth wcjk (cur ++ [w]) = groupWidth wcjk cur + wcjk w + 1 := by
  unfold groupWidth
  have hlen : 0 < cur.length := List.length_pos.mpr h
  simp only [List.map_append, List.sum_append, List.length_append,
    List.map_cons, List.map_nil, List.sum_cons, List.sum_nil,
    List.length_cons, List.length_nil]
  omega

theorem goodGroup_singleton (wcjk : String → Nat) (max : Nat) (w : String) :
    GoodGroup wcjk max [w] :=
  Or.inr ⟨w, rfl⟩

/-- First-fit closes a word group only when adding the next word would
reach the budget, so every group it forms (beyond the running one) either
fits or is a single word. -/
theorem guac_goodGroups (wcjk : String → Nat) (words : List String)
    (max : Nat) :
    ∀ (rest : List String) (i : Nat) (cur : List String) (W : Nat),
      1 ≤ i → words.drop i = rest → cur ≠ [] →
      W = groupWidth wcjk cur → (2 ≤ cur.length → W ≤ max) →
      GoodGroup wcjk max (cur ++ firstGroup
          ((sauceDecisions (guacamole wcjk) words
            { max := max, width := W } i rest).zip rest)) ∧
        ∀ g ∈ laterGroups
            ((sauceDecisions (guacamole wcjk) words
              { max := max, width := W } i rest).zip rest),
          GoodGroup wcjk max g := by
  intro rest
  induction rest with
  | nil =>
    intro i cur W h1 hdrop hcur hWdef hWfit
    refine ⟨?_, by intro g hg; simp [laterGroups] at hg⟩
    rw [show firstGroup (List.zip _ []) = [] from by
      rw [List.zip_nil_right]; rfl]
    rw [List.append_nil]
    by_cases hlen : 2 ≤ cur.length
    · exact Or.inl (by rw [← hWdef]; exact hWfit hlen)
    · have : cur.length = 1 := by
        have := List.length_pos.mpr hcur
        omega
      obtain ⟨a, ha⟩ := List.length_eq_one.mp this
      exact Or.inr ⟨a, ha⟩
  | cons w rest ih =>
    intro i cur W h1 hdrop hcur hWdef hWfit
    obtain ⟨hgetd, hdrop', hilt⟩ := drop_cons_getD hdrop ""
    have hcurGood : GoodGroup wcjk max cur := by
      by_cases hlen : 2 ≤ cur.length
      · exact Or.inl (by rw [← hWdef]; exact hWfit hlen)
      · have : cur.length = 1 := by
          have := List.length_pos.mpr hcur
          omega
        obtain ⟨a, ha⟩ := List.length_eq_one.mp this
        exact Or.inr ⟨a, ha⟩
    by_cases hW0 : W = 0
    · -- zero running width: break, the current group is closed
      have hbr : (guacamole wcjk).should_break
          { max := max, width := W } words i =
          (true, { max := max, width := wcjk w }) := by
        show (if W = 0 then _ else if W + wcjk (words.getD i "") < max
          then _ else _) = _
        rw [if_pos hW0, hgetd]
      have hdec : sauceDecisions (guacamole wcjk) words
          { max := max, width := W } i (w :: rest) =
          true :: sauceDecisions (guacamole wcjk) words
            { max := max, width := wcjk w } (i + 1) rest := by
        rw [sauceDecisions, hbr]
      rw [hdec]
      have hrec := ih (i + 1) [w] (wcjk w) (by omega) hdrop'
        (by simp) (by simp [groupWidth]) (by intro h2; simp at h2)
      constructor
      · rw [show firstGroup ((true :: _).zip (w :: rest)) = [] from rfl,
          List.append_nil]
        exact hcurGood
      · intro g hg
        rw [show laterGroups ((true :: sauceDecisions (guacamole wcjk) words
            { max := max, width := wcjk w } (i + 1) rest).zip (w :: rest)) =
            (w :: firstGroup ((sauceDecisions (guacamole wcjk) words
              { max := max, width := wcjk w } (i + 1) rest).zip rest)) ::
              laterGroups ((sauceDecisions (guacamole wcjk) words
                { max := max, width := wcjk w } (i + 1) rest).zip rest)
            from rfl] at hg
        rcases List.mem_cons.mp hg with rfl | hg
        · exact hrec.1
        · exact hrec.2 g hg
    · by_cases hlt : W + wcjk w < max
      · -- the next word joins the running group
        have hbr : (guacamole wcjk).should_break
            { max := max, width := W } words i =
            (false, { max := max, width := W + wcjk w + 1 }) := by
          show (if W = 0 then _ else if W + wcjk (words.getD i "") < max
            then _ else _) = _
          rw [hgetd, if_neg hW0, if_pos hlt]
        have hdec : sauceDecisions (guacamole wcjk) words
            { max := max, width := W } i (w :: rest) =
            false :: sauceDecisions (guacamole wcjk) words
              { max := max, width := W + wcjk w + 1 } (i + 1) rest := by
          rw [sauceDecisions, hbr]
        rw [hdec]
        have hrec := ih (i + 1) (cur ++ [w]) (W + wcjk w + 1) (by omega)
          hdrop' (by simp)
          (by rw [groupWidth_append_singleton wcjk cur w hcur, ← hWdef])
          (by intro _; omega)
        constructor
        · rw [show firstGroup ((false :: sauceDecisions (guacamole wcjk) words
              { max := max, width := W + wcjk w + 1 } (i + 1) rest).zip
                (w :: rest)) =
              w :: firstGroup ((sauceDecisions (guacamole wcjk) words
                { max := max, width := W + wcjk w + 1 } (i + 1) rest).zip rest)
              from rfl]
          rw [show cur ++ w :: firstGroup ((sauceDecisions (guacamole wcjk)
              words { max := max, width := W + wcjk w + 1 } (i + 1) rest).zip
                rest) = (cur ++ [w]) ++ firstGroup ((sauceDecisions
                  (guacamole wcjk) words { max := max, width := W + wcjk w + 1 }
                  (i + 1) rest).zip rest) from by
            rw [List.append_cons]]
          exact hrec.1
        · intro g hg
          rw [show laterGroups ((false :: sauceDecisions (guacamole wcjk) words
              { max := max, width := W + wcjk w + 1 } (i + 1) rest).zip
                (w :: rest)) =
              laterGroups ((sauceDecisions (guacamole wcjk) words
                { max := max, width := W + wcjk w + 1 } (i + 1) rest).zip rest)
              from rfl] at hg
          exact hrec.2 g hg
      · -- the next word would overflow: break, the current group is closed
        have hbr : (guacamole wcjk).should_break
            { max := max, width := W } words i =
            (true, { max := max, width := wcjk w }) := by
          show (if W = 0 then _ else if W + wcjk (words.getD i "") < max
            then _ else _) = _
          rw [hgetd, if_neg hW0, if_neg hlt]
        have hdec : sauceDecisions (guacamole wcjk) words
            { max := max, width := W } i (w :: rest) =
            true :: sauceDecisions (guacamole wcjk) words
              { max := max, width := wcjk w } (i + 1) rest := by
          rw [sauceDecisions, hbr]
        rw [hdec]
        have hrec := ih (i + 1) [w] (wcjk w) (by omega) hdrop'
          (by simp) (by simp [groupWidth]) (by intro h2; simp at h2)
        constructor
        · rw [show firstGroup ((true :: _).zip (w :: rest)) = [] from rfl,
            List.append_nil]
          exact hcurGood
        · intro g hg
          rw [show laterGroups ((true :: sauceDecisions (guacamole wcjk) words
              { max := max, width := wcjk w } (i + 1) rest).zip (w :: rest)) =
              (w :: firstGroup ((sauceDecisions (guacamole wcjk) words
                { max := max, width := wcjk w } (i + 1) rest).zip rest)) ::
                laterGroups ((sauceDecisions (guacamole wcjk) words
                  { max := max, width := wcjk w } (i + 1) rest).zip rest)
              from rfl] at hg
          rcases List.mem_cons.mp hg with rfl | hg
          · exact hrec.1
          · exact hrec.2 g hg

theorem salsaInner_inv (max n : Nat) (offs : List Nat) (start : Nat) :
    ∀ (steps e : Nat) (m : List (Nat × Nat)),
      start + 1 ≤ e → e + steps = n + 1 → MinInv max n offs m →
      MinInv max n offs (salsaInner max n offs start steps e m) := by
  intro steps
  induction steps with
  | zero => intro e m _ _ hm; exact hm
  | succ steps ih =>
    intro e m he hstep hm
    obtain ⟨hlen, h0, hinv⟩ := hm
    have hen : e ≤ n := by omega
    rw [salsaInner]
    by_cases hbrk : salsaLL offs start e > max ∧ e ≠ start + 1
    · rw [if_pos hbrk]
      exact ⟨hlen, h0, hinv⟩
    · rw [if_neg hbrk]
      by_cases hrel : salsaCost max n offs start e m < (m.getD e (0, 0)).2
      · rw [if_pos hrel]
        refine ih (e + 1) _ (by omega) (by omega) ?_
        have hlen' : (m.set e (start, salsaCost max n offs start e m)).length =
            n + 1 := by
          rw [List.length_set]; exact hlen
        refine ⟨hlen', ?_, ?_⟩
        · rw [getD_set_ne m _ _ (by omega)]
          exact h0
        · intro j hj1 hjn
          by_cases hje : j = e
          · subst hje
            rw [getD_set_self m _ _ (by omega)]
            show (salsaCost max n offs start j m = USIZE_MAX ∧ start = 0) ∨
              (salsaCost max n offs start j m < USIZE_MAX ∧
                ValidEdge max offs start j)
            right
            constructor
            · rcases hinv j hj1 hjn with ⟨hmax, _⟩ | ⟨hlt, _⟩
              · rw [hmax] at hrel; exact hrel
              · exact lt_trans hrel hlt
            · refine ⟨by omega, ?_⟩
              by_cases hej : j = start + 1
              · exact Or.inl hej
              · right
                have : ¬ salsaLL offs start j > max := fun hgt => hbrk ⟨hgt, hej⟩
                omega
          · rw [getD_set_ne m _ _ (fun h => hje h.symm)]
            exact hinv j hj1 hjn
      · rw [if_neg hrel]
        exact ih (e + 1) m (by omega) (by omega) ⟨hlen, h0, hinv⟩

theorem salsaOuter_inv (max n : Nat) (offs : List Nat) :
    ∀ (steps start : Nat) (m : List (Nat × Nat)),
      start + steps ≤ n → MinInv max n offs m →
      MinInv max n offs (salsaOuter max n offs steps start m) := by
  intro steps
  induction steps with
  | zero => intro start m _ hm; exact hm
  | succ steps ih =>
    intro start m hsn hm
    show MinInv max n offs (salsaOuter max n offs steps (start + 1)
      (salsaInner max n offs start (n - start) (start + 1) m))
    exact ih (start + 1) _ (by omega)
      (salsaInner_inv max n offs start (n - start) (start + 1) m
        (by omega) (by omega) hm)

theorem salsaInner_length (max n : Nat) (offs : List Nat) (start : Nat) :
    ∀ (steps e : Nat) (m : List (Nat × Nat)),
      (salsaInner max n offs start steps e m).length = m.length := by
  intro steps
  induction steps with
  | zero => intro e m; rfl
  | succ steps ih =>
    intro e m
    rw [salsaInner]
    by_cases hbrk : salsaLL offs start e > max ∧ e ≠ start + 1
    · rw [if_pos hbrk]
    · rw [if_neg hbrk]
      by_cases hrel : salsaCost max n offs start e m < (m.getD e (0, 0)).2
      · rw [if_pos hrel, ih, List.length_set]
      · rw [if_neg hrel, ih]

theorem salsaOuter_length (max n : Nat) (offs : List Nat) :
    ∀ (steps start : Nat) (m : List (Nat × Nat)),
      (salsaOuter max n offs steps start m).length = m.length := by
  intro steps
  induction steps with
  | zero => intro start m; rfl
  | succ steps ih =>
    intro start m
    show (salsaOuter max n offs steps (start + 1) _).length = _
    rw [ih, salsaInner_length]

theorem salsaInner_cost_mono (max n : Nat) (offs : List Nat) (start : Nat) :
    ∀ (steps e : Nat) (m : List (Nat × Nat)) (j : Nat),
      ((salsaInner max n offs start steps e m).getD j (0, 0)).2 ≤
        (m.getD j (0, 0)).2 := by
  intro steps
  induction steps with
  | zero => intro e m j; exact Nat.le_refl _
  | succ steps ih =>
    intro e m j
    rw [salsaInner]
    by_cases hbrk : salsaLL offs start e > max ∧ e ≠ start + 1
    · rw [if_pos hbrk]
    · rw [if_neg hbrk]
      by_cases hrel : salsaCost max n offs start e m < (m.getD e (0, 0)).2
      · rw [if_pos hrel]
        refine le_trans (ih (e + 1) _ j) ?_
        by_cases hje : j = e
        · subst hje
          by_cases hjl : j < m.length
          · rw [getD_set_self m _ _ hjl]
            exact Nat.le_of_lt hrel
          · rw [List.set_eq_of_length_le (by omega)]
        · rw [getD_set_ne m _ _ (fun h => hje h.symm)]
      · rw [if_neg hrel]
        exact ih (e + 1) m j

theorem salsaOuter_cost_mono (max n : Nat) (offs : List Nat) :
    ∀ (steps start : Nat) (m : List (Nat × Nat)) (j : Nat),
      ((salsaOuter max n offs steps start m).getD j (0, 0)).2 ≤
        (m.getD j (0, 0)).2 := by
  intro steps
  induction steps with
  | zero => intro start m j; exact Nat.le_refl _
  | succ steps ih =>
    intro start m j
    show ((salsaOuter max n offs steps (start + 1)
        (salsaInner max n offs start (n - start) (start + 1) m)).getD
          j (0, 0)).2 ≤ _
    exact le_trans (ih (start + 1) _ j)
      (salsaInner_cost_mono max n offs start (n - start) (start + 1) m j)

theorem salsaInner_relax_head (max n : Nat) (offs : List Nat) (start : Nat) :
    ∀ (steps : Nat) (m : List (Nat × Nat)), 1 ≤ steps →
      start + 1 < m.length →
      ((salsaInner max n offs start steps (start + 1) m).getD
          (start + 1) (0, 0)).2 ≤
        salsaCost max n offs start (start + 1) m := by
  intro steps m hsteps hlt
  obtain ⟨s, rfl⟩ : ∃ s, steps = s + 1 := ⟨steps - 1, by omega⟩
  rw [salsaInner]
  rw [if_neg (by intro h; exact h.2 rfl)]
  by_cases hrel : salsaCost max n offs start (start + 1) m <
      (m.getD (start + 1) (0, 0)).2
  · rw [if_pos hrel]
    refine le_trans (salsaInner_cost_mono max n offs start s (start + 2) _
      (start + 1)) ?_
    rw [getD_set_self m _ _ hlt]
  · rw [if_neg hrel]
    exact le_trans (salsaInner_cost_mono max n offs start s (start + 2) m
      (start + 1)) (by omega)

theorem salsaOuter_compose (max n : Nat) (offs : List Nat) :
    ∀ (s1 s2 start : Nat) (m : List (Nat × Nat)),
      salsaOuter max n offs (s1 + s2) start m =
        salsaOuter max n offs s2 (start + s1)
          (salsaOuter max n offs s1 start m) := by
  intro s1
  induction s1 with
  | zero =>
    intro s2 start m
    rw [Nat.zero_add, Nat.add_zero]
    rfl
  | succ s1 ih =>
    intro s2 start m
    rw [show s1 + 1 + s2 = (s1 + s2) + 1 from by omega]
    show salsaOuter max n offs (s1 + s2) (start + 1)
        (salsaInner max n offs start (n - start) (start + 1) m) = _
    rw [ih s2 (start + 1) _]
    rw [show start + 1 + s1 = start + (s1 + 1) from by omega]
    rfl

theorem salsaPenalty_le (max n : Nat) (offs : List Nat) (start e : Nat) :
    salsaPenalty max n offs start e ≤ max ^ 2 := by
  unfold salsaPenalty
  by_cases he : e ≠ n
  · rw [if_pos he]
    exact Nat.pow_le_pow_left (Nat.sub_le max _) 2
  · rw [if_neg he]
    exact Nat.zero_le _

theorem salsa_reach (max n : Nat) (offs : List Nat) :
    ∀ j, j ≤ n →
      ((salsaOuter max n offs j 0
          ((0, 0) :: List.replicate n (0, USIZE_MAX))).getD j (0, 0)).2 ≤
        j * max ^ 2 := by
  intro j
  induction j with
  | zero => intro _; exact Nat.zero_le _
  | succ j ih =>
    intro hjn
    have hprev := ih (by omega)
    rw [show j + 1 = j + (0 + 1) from by omega,
      salsaOuter_compose max n offs j (0 + 1) 0]
    rw [Nat.zero_add]
    show ((salsaOuter max n offs 0 (0 + j + 1)
        (salsaInner max n offs (0 + j) (n - (0 + j)) (0 + j + 1)
          (salsaOuter max n offs j 0
            ((0, 0) :: List.replicate n (0, USIZE_MAX))))).getD
        (j + 1) (0, 0)).2 ≤ _
    rw [Nat.zero_add]
    have hlen : (salsaOuter max n offs j 0
        ((0, 0) :: List.replicate n (0, USIZE_MAX))).length = n + 1 := by
      rw [salsaOuter_length]
      simp
    have hrelax := salsaInner_relax_head max n offs j (n - j)
      (salsaOuter max n offs j 0 ((0, 0) :: List.replicate n (0, USIZE_MAX)))
      (by omega) (by omega)
    refine le_trans hrelax ?_
    unfold salsaCost
    have hpen := salsaPenalty_le max n offs j (j + 1)
    have : (j + 1) * max ^ 2 = j * max ^ 2 + max ^ 2 := by ring
    omega

theorem backtrack_head_mem (m : List (Nat × Nat)) (fuel idx : Nat) :
    idx ∈ backtrack m fuel idx := by
  cases fuel with
  | zero => exact List.mem_singleton.mpr rfl
  | succ fuel =>
    have he : backtrack m (fuel + 1) idx =
        idx :: (if idx = 0 then [] else
          backtrack m fuel (m.getD idx (0, 0)).1) := rfl
    rw [he]
    exact List.mem_cons_self _ _

theorem backtrack_mem_le (m : List (Nat × Nat)) (n : Nat)
    (hdesc : ∀ j, 1 ≤ j → j ≤ n → (m.getD j (0, 0)).1 < j) :
    ∀ (fuel idx : Nat), idx ≤ n → ∀ x ∈ backtrack m fuel idx, x ≤ idx := by
  intro fuel
  induction fuel with
  | zero =>
    intro idx _ x hx
    have he : backtrack m 0 idx = [idx] := rfl
    rw [he] at hx
    rw [List.mem_singleton.mp hx]
  | succ fuel ih =>
    intro idx hidx x hx
    have he : backtrack m (fuel + 1) idx =
        idx :: (if idx = 0 then [] else
          backtrack m fuel (m.getD idx (0, 0)).1) := rfl
    rw [he] at hx
    rcases List.mem_cons.mp hx with rfl | hx
    · exact Nat.le_refl _
    · by_cases h0 : idx = 0
      · rw [if_pos h0] at hx
        exact absurd hx (List.not_mem_nil x)
      · rw [if_neg h0] at hx
        have hp := hdesc idx (by omega) hidx
        have := ih (m.getD idx (0, 0)).1 (by omega) x hx
        omega

theorem backtrack_zero_mem (m : List (Nat × Nat)) (n : Nat)
    (hdesc : ∀ j, 1 ≤ j → j ≤ n → (m.getD j (0, 0)).1 < j) :
    ∀ (fuel idx : Nat), idx ≤ fuel → idx ≤ n →
      (0 : Nat) ∈ backtrack m fuel idx := by
  intro fuel
  induction fuel with
  | zero =>
    intro idx hif _
    have : idx = 0 := by omega
    subst this
    exact List.mem_singleton.mpr rfl
  | succ fuel ih =>
    intro idx hif hidx
    have he : backtrack m (fuel + 1) idx =
        idx :: (if idx = 0 then [] else
          backtrack m fuel (m.getD idx (0, 0)).1) := rfl
    rw [he]
    by_cases h0 : idx = 0
    · subst h0
      exact List.mem_cons_self _ _
    · rw [if_neg h0]
      have hp := hdesc idx (by omega) hidx
      exact List.mem_cons_of_mem _ (ih (m.getD idx (0, 0)).1 (by omega)
        (by omega))

/-- Two backtrack-path nodes with no path node strictly between them are
linked by the stored predecessor. -/
theorem backtrack_adjacent (m : List (Nat × Nat)) (n : Nat)
    (hdesc : ∀ j, 1 ≤ j → j ≤ n → (m.getD j (0, 0)).1 < j) :
    ∀ (fuel idx : Nat), idx ≤ n →
      ∀ b a, b ∈ backtrack m fuel idx → a ∈ backtrack m fuel idx → a < b →
        (∀ j, a < j → j < b → j ∉ backtrack m fuel idx) →
        a = (m.getD b (0, 0)).1 := by
  intro fuel
  induction fuel with
  | zero =>
    intro idx _ b a hb ha hab _
    have he : backtrack m 0 idx = [idx] := rfl
    rw [he] at hb ha
    rw [List.mem_singleton.mp hb, List.mem_singleton.mp ha] at hab
    omega
  | succ fuel ih =>
    intro idx hidx b a hb ha hab hmid
    have he : backtrack m (fuel + 1) idx =
        idx :: (if idx = 0 then [] else
          backtrack m fuel (m.getD idx (0, 0)).1) := rfl
    rw [he] at hb ha
    by_cases hbidx : b = idx
    · subst hbidx
      rcases List.mem_cons.mp ha with rfl | ha
      · omega
      · by_cases h0 : b = 0
        · rw [if_pos h0] at ha
          exact absurd ha (List.not_mem_nil a)
        · rw [if_neg h0] at ha
          have hp : (m.getD b (0, 0)).1 < b := hdesc b (by omega) hidx
          have hap : a ≤ (m.getD b (0, 0)).1 :=
            backtrack_mem_le m n hdesc fuel (m.getD b (0, 0)).1 (by omega) a ha
          by_cases hap2 : a = (m.getD b (0, 0)).1
          · exact hap2
          · exfalso
            refine hmid (m.getD b (0, 0)).1 (by omega) hp ?_
            rw [he, if_neg h0]
            exact List.mem_cons_of_mem _
              (backtrack_head_mem m fuel (m.getD b (0, 0)).1)
    · rcases List.mem_cons.mp hb with rfl | hb
      · exact absurd rfl hbidx
      · by_cases h0 : idx = 0
        · rw [if_pos h0] at hb
          exact absurd hb (List.not_mem_nil b)
        · rw [if_neg h0] at hb
          have hp : (m.getD idx (0, 0)).1 < idx := hdesc idx (by omega) hidx
          have hble : b ≤ (m.getD idx (0, 0)).1 :=
            backtrack_mem_le m n hdesc fuel (m.getD idx (0, 0)).1 (by omega)
              b hb
          rcases List.mem_cons.mp ha with rfl | ha
          · omega
          · rw [if_neg h0] at ha
            refine ih (m.getD idx (0, 0)).1 (by omega) b a hb ha hab ?_
            intro j hj1 hj2 hjmem
            refine hmid j hj1 hj2 ?_
            rw [he, if_neg h0]
            exact List.mem_cons_of_mem _ hjmem

theorem firstGroup_zip_cons_true (ds : List Bool) (w : String)
    (ws : List String) :
    firstGroup ((true :: ds).zip (w :: ws)) = [] := rfl

theorem firstGroup_zip_cons_false (ds : List Bool) (w : String)
    (ws : List String) :
    firstGroup ((false :: ds).zip (w :: ws)) = w :: firstGroup (ds.zip ws) :=
  rfl

theorem laterGroups_zip_cons_true (ds : List Bool) (w : String)
    (ws : List String) :
    laterGroups ((true :: ds).zip (w :: ws)) =
      (w :: firstGroup (ds.zip ws)) :: laterGroups (ds.zip ws) := rfl

theorem laterGroups_zip_cons_false (ds : List Bool) (w : String)
    (ws : List String) :
    laterGroups ((false :: ds).zip (w :: ws)) = laterGroups (ds.zip ws) := rfl

/-- The line length of the salsa DP edge `(a, b)` is the group width of
the words `a, ..., b-1`. -/
theorem ll_segment (wcjk : String → Nat) (words : List String) {a b : Nat}
    (hab : a < b) (hb : b ≤ words.length) :
    salsaLL (salsaOffsets wcjk words) a b =
      groupWidth wcjk ((words.drop a).take (b - a)) := by
  unfold salsaLL
  rw [salsaOffsets_getD wcjk words hb, salsaOffsets_getD wcjk words (by omega)]
  have htake : words.take b = words.take a ++ (words.drop a).take (b - a) := by
    conv_lhs => rw [show b = a + (b - a) from by omega]
    exact List.take_add words a (b - a)
  rw [htake, List.map_append, List.sum_append]
  have hlen : ((words.drop a).take (b - a)).length = b - a := by
    rw [List.length_take, List.length_drop]
    omega
  unfold groupWidth
  rw [hlen]
  omega

theorem seg_extend {α : Type} {words : List α} {i : Nat} {w : α}
    {rest : List α} (hdrop : words.drop i = w :: rest) {a : Nat}
    (hai : a ≤ i) :
    (words.drop a).take (i - a) ++ [w] = (words.drop a).take (i + 1 - a) := by
  have hidx : (words.drop a)[i - a]? = some w := by
    rw [List.getElem?_drop, show a + (i - a) = i from by omega,
      ← List.head?_drop, hdrop]
    rfl
  rw [show i + 1 - a = (i - a) + 1 from by omega, List.take_succ, hidx]
  rfl

/-- The word groups produced by the salsa decisions are exactly the
segments of the word list delimited by consecutive break-set members
(plus the endpoints 0 and n). -/
theorem salsa_groups (wcjk : String → Nat) (B : List Nat)
    (words : List String) (GOOD : List String → Prop)
    (hgood : ∀ a b, a < b → b ≤ words.length →
      (a = 0 ∨ B.contains a = true) →
      (b = words.length ∨ B.contains b = true) →
      (∀ j, a < j → j < b → B.contains j = false) →
      GOOD ((words.drop a).take (b - a))) :
    ∀ (rest : List String) (i : Nat), words.drop i = rest → 1 ≤ i →
      i ≤ words.length →
      ∀ a, a < i → (a = 0 ∨ B.contains a = true) →
      (∀ j, a < j → j < i → B.contains j = false) →
      GOOD ((words.drop a).take (i - a) ++ firstGroup
          ((sauceDecisions (salsa wcjk) words B i rest).zip rest)) ∧
        ∀ g ∈ laterGroups
            ((sauceDecisions (salsa wcjk) words B i rest).zip rest),
          GOOD g := by
  intro rest
  induction rest with
  | nil =>
    intro i hdrop h1 hle a hai ha hmid
    have hieq : i = words.length := by
      have := congrArg List.length hdrop
      simp only [List.length_drop, List.length_nil] at this
      omega
    constructor
    · rw [show firstGroup ((sauceDecisions (salsa wcjk) words B i []).zip []) =
        [] from rfl, List.append_nil]
      subst hieq
      exact hgood a words.length hai (Nat.le_refl _) ha (Or.inl rfl) hmid
    · intro g hg
      rw [show laterGroups ((sauceDecisions (salsa wcjk) words B i []).zip []) =
        [] from rfl] at hg
      exact absurd hg (List.not_mem_nil g)
  | cons w rest ih =>
    intro i hdrop h1 hle a hai ha hmid
    obtain ⟨hgetd, hdrop', hilt⟩ := drop_cons_getD hdrop ""
    have hDec : sauceDecisions (salsa wcjk) words B i (w :: rest) =
        B.contains i :: sauceDecisions (salsa wcjk) words B (i + 1) rest := rfl
    rw [hDec]
    by_cases hd : B.contains i = true
    · rw [hd]
      have hrec := ih (i + 1) hdrop' (by omega) (by omega) i (by omega)
        (Or.inr hd) (by intro j hj1 hj2; exact absurd hj2 (by omega))
      constructor
      · rw [firstGroup_zip_cons_true, List.append_nil]
        exact hgood a i hai (by omega) ha (Or.inr hd) hmid
      · intro g hg
        rw [laterGroups_zip_cons_true] at hg
        rcases List.mem_cons.mp hg with rfl | hg
        · have h1' := hrec.1
          rw [show (words.drop i).take (i + 1 - i) = [w] from by
              rw [show i + 1 - i = 1 from by omega, hdrop]; rfl] at h1'
          rw [List.singleton_append] at h1'
          exact h1'
        · exact hrec.2 g hg
    · rw [Bool.not_eq_true] at hd
      rw [hd]
      have hrec := ih (i + 1) hdrop' (by omega) (by omega) a (by omega) ha
        (by
          intro j hj1 hj2
          by_cases hji : j = i
          · rw [hji]; exact hd
          · exact hmid j hj1 (by omega))
      constructor
      · rw [firstGroup_zip_cons_false, List.append_cons,
          seg_extend hdrop (by omega)]
        exact hrec.1
      · intro g hg
        rw [laterGroups_zip_cons_false] at hg
        exact hrec.2 g hg

theorem m0_inv (max n : Nat) (offs : List Nat) :
    MinInv max n offs ((0, 0) :: List.replicate n (0, USIZE_MAX)) := by
  refine ⟨by simp, rfl, ?_⟩
  intro j hj1 hjn
  obtain ⟨k, rfl⟩ : ∃ k, j = k + 1 := ⟨j - 1, by omega⟩
  left
  rw [List.getD_cons_succ, getD_replicate _ _ (by omega)]
  exact ⟨rfl, rfl⟩

/-- Two consecutive members of the backtracked break set (with the
endpoints 0 and n) are linked by a stored valid edge. -/
theorem salsa_break_edges (max n : Nat) (offs : List Nat)
    (m : List (Nat × Nat)) (hinv : MinInv max n offs m)
    (hreach : ∀ j, 1 ≤ j → j ≤ n → (m.getD j (0, 0)).2 < USIZE_MAX)
    (hn1 : 1 ≤ n) :
    ∀ a b, a < b → b ≤ n →
      (a = 0 ∨ ((backtrack m n n).drop 1).contains a = true) →
      (b = n ∨ ((backtrack m n n).drop 1).contains b = true) →
      (∀ j, a < j → j < b → ((backtrack m n n).drop 1).contains j = false) →
      b = a + 1 ∨ salsaLL offs a b ≤ max := by
  have hdesc : ∀ j, 1 ≤ j → j ≤ n → (m.getD j (0, 0)).1 < j := by
    intro j hj1 hjn
    rcases hinv.2.2 j hj1 hjn with ⟨hmax, _⟩ | ⟨_, hedge⟩
    · exact absurd hmax (Nat.ne_of_lt (hreach j hj1 hjn))
    · exact hedge.1
  have hpath : backtrack m n n = n :: (backtrack m n n).drop 1 := by
    obtain ⟨k, hk⟩ : ∃ k, n = k + 1 := ⟨n - 1, by omega⟩
    conv_lhs => rw [hk]
    conv_rhs => rw [hk]
    rfl
  intro a b hab hbn ha hb hmid
  have hbpath : b ∈ backtrack m n n := by
    rcases hb with rfl | hb
    · exact backtrack_head_mem m b b
    · rw [hpath]
      exact List.mem_cons_of_mem _ (List.mem_of_elem_eq_true hb)
  have hapath : a ∈ backtrack m n n := by
    rcases ha with rfl | ha
    · exact backtrack_zero_mem m n hdesc n n (Nat.le_refl n) (Nat.le_refl n)
    · rw [hpath]
      exact List.mem_cons_of_mem _ (List.mem_of_elem_eq_true ha)
  have hmid' : ∀ j, a < j → j < b → j ∉ backtrack m n n := by
    intro j hj1 hj2 hjmem
    rw [hpath] at hjmem
    rcases List.mem_cons.mp hjmem with rfl | hjmem
    · omega
    · have hc : ((backtrack m n n).drop 1).contains j = true :=
        List.elem_eq_true_of_mem hjmem
      rw [hmid j hj1 hj2] at hc
      exact absurd hc (by decide)
  have hadj : a = (m.getD b (0, 0)).1 :=
    backtrack_adjacent m n hdesc n n (Nat.le_refl n) b a hbpath hapath hab
      hmid'
  rcases hinv.2.2 b (by omega) hbn with ⟨hmax, _⟩ | ⟨_, hedge⟩
  · exact absurd hmax (Nat.ne_of_lt (hreach b (by omega) hbn))
  · rw [← hadj] at hedge
    exact hedge.2

/-- Under the arithmetic sanity bound, every word group chosen by the
optimal-fit strategy either fits in the budget or is a single word. -/
theorem salsa_goodGroups (wcjk : String → Nat) (words : List String)
    (max : Nat) (w0 : String) (rest : List String) (hw : words = w0 :: rest)
    (hsane : words.length * max ^ 2 < USIZE_MAX) :
    GoodGroup wcjk max (w0 :: firstGroup
        ((sauceDecisions (salsa wcjk) words (salsaPrepare wcjk words max)
          1 rest).zip rest)) ∧
      ∀ g ∈ laterGroups
          ((sauceDecisions (salsa wcjk) words (salsaPrepare wcjk words max)
            1 rest).zip rest),
        GoodGroup wcjk max g := by
  have hn1 : 1 ≤ words.length := by rw [hw]; simp
  have hBdef : salsaPrepare wcjk words max =
      (backtrack (salsaOuter max words.length (salsaOffsets wcjk words)
        words.length 0 ((0, 0) ::
          List.replicate words.length (0, USIZE_MAX)))
        words.length words.length).drop 1 := rfl
  have hinv : MinInv max words.length (salsaOffsets wcjk words)
      (salsaOuter max words.length (salsaOffsets wcjk words)
        words.length 0 ((0, 0) ::
          List.replicate words.length (0, USIZE_MAX))) :=
    salsaOuter_inv max words.length (salsaOffsets wcjk words)
      words.length 0 _ (by omega)
      (m0_inv max words.length (salsaOffsets wcjk words))
  have hreach : ∀ j, 1 ≤ j → j ≤ words.length →
      ((salsaOuter max words.length (salsaOffsets wcjk words)
          words.length 0 ((0, 0) ::
            List.replicate words.length (0, USIZE_MAX))).getD
        j (0, 0)).2 < USIZE_MAX := by
    intro j hj1 hjn
    have hcomp := salsaOuter_compose max words.length
      (salsaOffsets wcjk words) j (words.length - j) 0
      ((0, 0) :: List.replicate words.length (0, USIZE_MAX))
    rw [show j + (words.length - j) = words.length from by omega,
      Nat.zero_add] at hcomp
    rw [hcomp]
    refine lt_of_le_of_lt (le_trans
      (salsaOuter_cost_mono max words.length (salsaOffsets wcjk words)
        (words.length - j) j _ j)
      (salsa_reach max words.length (salsaOffsets wcjk words) j hjn)) ?_
    calc j * max ^ 2 ≤ words.length * max ^ 2 :=
          Nat.mul_le_mul_right _ hjn
      _ < USIZE_MAX := hsane
  have hgood : ∀ a b, a < b → b ≤ words.length →
      (a = 0 ∨ (salsaPrepare wcjk words max).contains a = true) →
      (b = words.length ∨ (salsaPrepare wcjk words max).contains b = true) →
      (∀ j, a < j → j < b →
        (salsaPrepare wcjk words max).contains j = false) →
      GoodGroup wcjk max ((words.drop a).take (b - a)) := by
    intro a b hab hbn ha hb hmid
    rw [hBdef] at ha hb hmid
    have hedge := salsa_break_edges max words.length
      (salsaOffsets wcjk words) _ hinv hreach hn1 a b hab hbn ha hb hmid
    rcases hedge with hsing | hll
    · cases hda : words.drop a with
      | nil =>
        exfalso
        have := congrArg List.length hda
        simp only [List.length_drop, List.length_nil] at this
        omega
      | cons x xs =>
        exact Or.inr ⟨x, by rw [show b - a = 1 from by omega]; rfl⟩
    · rw [ll_segment wcjk words hab hbn] at hll
      exact Or.inl hll
  have happ := salsa_groups wcjk (salsaPrepare wcjk words max) words
    (GoodGroup wcjk max) hgood rest 1 (by rw [hw]; rfl) (Nat.le_refl 1) hn1 0
    (by omega) (Or.inl rfl)
    (by intro j hj1 hj2; exact absurd hj2 (by omega))
  constructor
  · have h1 := happ.1
    rw [show (words.drop 0).take (1 - 0) = [w0] from by rw [hw]; rfl,
      List.singleton_append] at h1
    exact h1
  · exact happ.2

theorem NotSeparator.ne_nl {w : String} (h : NotSeparator w) (nl : Newline) :
    w ≠ nl.as_str := by
  cases nl with
  | LF => exact h.2.2.1
  | CRLF => exact h.2.2.2

/-- The width bound for one wrapped line, for any strategy whose word
groups are good. -/
theorem width_bound_line {σ : Type} (S : Sauce σ) (wcjk : String → Nat)
    (toppings : Toppings) (l : Line)
    (hub : unbreakableWidth wcjk toppings l ≤ toppings.width)
    (hc : ∀ c, l.comment = some c → NotSeparator c)
    (hb : ∀ b, l.bullet = some b → NotSeparator b)
    (hws : ∀ w ∈ l.words, NotSeparator w)
    (hgroups : ∀ w0 rest, l.words = w0 :: rest →
      GoodGroup wcjk (breakableWidth wcjk toppings l)
        (w0 :: firstGroup ((sauceDecisions S l.words
          (S.should_break (S.prepare l.words
            (breakableWidth wcjk toppings l)) l.words 0).2 1 rest).zip
          rest)) ∧
      ∀ g ∈ laterGroups ((sauceDecisions S l.words
          (S.should_break (S.prepare l.words
            (breakableWidth wcjk toppings l)) l.words 0).2 1 rest).zip rest),
        GoodGroup wcjk (breakableWidth wcjk toppings l) g) :
    ∀ seg ∈ outLines toppings.newline.as_str (lineWrap S wcjk toppings l),
      fragsWidth toppings wcjk seg ≤ toppings.width ∨
        ∃ w, breakableWidth wcjk toppings l < wcjk w ∧
          (seg = firstLead l ++ [w] ∨
            seg = contLead l (bulletWidth wcjk l) ++ [w]) := by
  have hcne : ∀ c, l.comment = some c → c ≠ toppings.newline.as_str :=
    fun c hcc => (hc c hcc).ne_nl toppings.newline
  have hbne : ∀ b, l.bullet = some b → b ≠ toppings.newline.as_str :=
    fun b hbb => (hb b hbb).ne_nl toppings.newline
  cases hw : l.words with
  | nil =>
    intro seg hseg
    have hpre : ∀ f ∈ prefixFrags l ++
        (match l.bullet with | some b => [b] | none => []),
        f ≠ toppings.newline.as_str := by
      intro f hf
      rcases List.mem_append.mp hf with hf | hf
      · exact prefixFrags_ne_nl l toppings.newline hcne f hf
      · cases hbl : l.bullet with
        | none =>
          rw [hbl] at hf
          exact absurd hf (List.not_mem_nil f)
        | some b =>
          rw [hbl] at hf
          simp at hf
          subst hf
          exact hbne f hbl
    rw [outLines_lineWrap_nil S wcjk toppings l hw hpre] at hseg
    have hseg' := List.mem_singleton.mp hseg
    subst hseg'
    left
    rw [fragsWidth_append, fragsWidth_prefixFrags toppings wcjk l hc]
    have hbl2 : fragsWidth toppings wcjk
        (match l.bullet with | some b => [b] | none => []) ≤
        bulletWidth wcjk l := by
      unfold bulletWidth
      cases hbl : l.bullet with
      | none => exact Nat.le_refl _
      | some b =>
        show fragsWidth toppings wcjk [b] ≤ wcjk b + 1
        unfold fragsWidth
        simp only [List.map_cons, List.map_nil, List.sum_cons, List.sum_nil]
        rw [fragWidth_word toppings wcjk (hb b hbl)]
        omega
    unfold unbreakableWidth at hub
    omega
  | cons w0 rest =>
    have hw0ns : NotSeparator w0 := hws w0 (by rw [hw]; simp)
    have hps : ∀ p ∈ ((sauceDecisions S l.words
        (S.should_break (S.prepare l.words
          (breakableWidth wcjk toppings l)) l.words 0).2 1 rest).zip rest),
        p.2 ≠ toppings.newline.as_str := by
      intro p hp
      have hp2 := (List.of_mem_zip hp).2
      exact (hws p.2 (by rw [hw]; simp [hp2])).ne_nl toppings.newline
    intro seg hseg
    rw [lineWrap_render S wcjk toppings l w0 rest hw,
      outLines_render l toppings.newline (bulletWidth wcjk l) w0
        (contLead_ne_nl l toppings.newline (bulletWidth wcjk l) hcne)
        (firstLead_ne_nl l toppings.newline hcne hbne)
        (hw0ns.ne_nl toppings.newline) _ hps] at hseg
    refine subline_width_of_goodGroups toppings wcjk l w0 _ hub hc hb
      ?_ (hgroups w0 rest hw).1 (hgroups w0 rest hw).2 seg hseg
    intro w hwmem
    rcases hwmem with rfl | ⟨p, hp, rfl⟩
    · exact hw0ns
    · have hp2 := (List.of_mem_zip hp).2
      exact hws p.2 (by rw [hw]; simp [hp2])

/-- **C1** (amended).  As written the claim fails: a structural prefix can
already exceed the width (counterexample below).  Amended with the
hypothesis that the unbreakable prefix fits in the width (and, for the
optimal-fit strategy, that the shortest-path costs stay below the
`usize::MAX` sentinel), every output sub-line of a wrapped line either has
total fragment width at most `toppings.width`, or consists of a lead
followed by a single word wider than the breakable budget — under both
strategies. -/
theorem width_bound (wcjk : String → Nat) (toppings : Toppings) (l : Line)
    (hub : unbreakableWidth wcjk toppings l ≤ toppings.width)
    (hc : ∀ c, l.comment = some c → NotSeparator c)
    (hb : ∀ b, l.bullet = some b → NotSeparator b)
    (hws : ∀ w ∈ l.words, NotSeparator w) :
    (∀ seg ∈ outLines toppings.newline.as_str
        (lineWrap (guacamole wcjk) wcjk toppings l),
      fragsWidth toppings wcjk seg ≤ toppings.width ∨
        ∃ w, breakableWidth wcjk toppings l < wcjk w ∧
          (seg = firstLead l ++ [w] ∨
            seg = contLead l (bulletWidth wcjk l) ++ [w])) ∧
    (l.words.length * breakableWidth wcjk toppings l ^ 2 < USIZE_MAX →
      ∀ seg ∈ outLines toppings.newline.as_str
          (lineWrap (salsa wcjk) wcjk toppings l),
        fragsWidth toppings wcjk seg ≤ toppings.width ∨
          ∃ w, breakableWidth wcjk toppings l < wcjk w ∧
            (seg = firstLead l ++ [w] ∨
              seg = contLead l (bulletWidth wcjk l) ++ [w])) := by
  constructor
  · refine width_bound_line (guacamole wcjk) wcjk toppings l hub hc hb hws ?_
    intro w0 rest hw
    have hs1 : ((guacamole wcjk).should_break ((guacamole wcjk).prepare
        l.words (breakableWidth wcjk toppings l)) l.words 0).2 =
        { max := breakableWidth wcjk toppings l,
          width := groupWidth wcjk (l.words.take 1) } := by
      rw [show (guacamole wcjk).prepare l.words
          (breakableWidth wcjk toppings l) =
          { max := breakableWidth wcjk toppings l, width := 0 } from rfl,
        guac_first_step wcjk l.words (breakableWidth wcjk toppings l) w0
          rest hw]
    rw [hs1]
    have hgg := guac_goodGroups wcjk l.words
      (breakableWidth wcjk toppings l) rest 1 [w0]
      (groupWidth wcjk (l.words.take 1)) (Nat.le_refl 1)
      (by rw [hw]; rfl) (by simp) (by rw [hw]; rfl)
      (by intro h2; simp at h2)
    exact ⟨by rw [← List.singleton_append]; exact hgg.1, hgg.2⟩
  · intro hsane
    refine width_bound_line (salsa wcjk) wcjk toppings l hub hc hb hws ?_
    intro w0 rest hw
    exact salsa_goodGroups wcjk l.words (breakableWidth wcjk toppings l)
      w0 rest hw hsane

/-- **C1** (counterexample to the claim as written).  At width 1, the
input of three spaces and a newline yields the single output sub-line of
three space fragments: its width 3 exceeds `toppings.width = 1`, yet its
content holds no word at all, so it is not a single overflowing word. -/
theorem width_bound_counterexample :
    (outLines "\n" (wrap (guacamole String.length) String.length
        { tabs := 4, width := 1, newline := Newline.LF }
        [" ", " ", " ", "\n"]) = [[" ", " ", " "]]) ∧
    ¬ fragsWidth { tabs := 4, width := 1, newline := Newline.LF }
        String.length [" ", " ", " "] ≤ 1 ∧
    ∀ f ∈ ([" ", " ", " "] : List String), f = " " := by
  refine ⟨by decide, by decide, by decide⟩

theorem sauceDecisionsGuacChecked_eq (wcjk : String → Nat)
    (words : List String) :
    ∀ (rest : List String) (i : Nat) (s : GuacState), words.drop i = rest →
      sauceDecisionsGuacChecked wcjk words s i rest =
        some (sauceDecisions (guacamole wcjk) words s i rest) := by
  intro rest
  induction rest with
  | nil => intro i s _; rfl
  | cons w rest ih =>
    intro i s hdrop
    obtain ⟨_, hdrop', hilt⟩ := drop_cons_getD hdrop ""
    rcases hsb : (guacamole wcjk).should_break s words i with ⟨b, s2⟩
    show (match guacamoleChecked wcjk words s i with
      | none => none
      | some (b, s2) =>
        match sauceDecisionsGuacChecked wcjk words s2 (i + 1) rest with
        | none => none
        | some ds => some (b :: ds)) = _
    rw [show guacamoleChecked wcjk words s i = some (b, s2) from by
      unfold guacamoleChecked
      rw [if_pos hilt, hsb]]
    show (match sauceDecisionsGuacChecked wcjk words s2 (i + 1) rest with
      | none => none
      | some ds => some (b :: ds)) = _
    rw [ih (i + 1) s2 hdrop']
    rw [sauceDecisions, hsb]

theorem salsaInnerChecked_eq (max n : Nat) (offs : List Nat) (start : Nat)
    (hoffs : offs.length = n + 1) :
    ∀ (steps e : Nat) (m : List (Nat × Nat)),
      start + 1 ≤ e → e + steps = n + 1 → m.length = n + 1 →
      (m.getD start (0, 0)).2 + max ^ 2 ≤ USIZE_MAX →
      salsaInnerChecked max n offs start steps e m =
        some (salsaInner max n offs start steps e m) := by
  intro steps
  induction steps with
  | zero => intro e m _ _ _ _; rfl
  | succ steps ih =>
    intro e m he hstep hlen hbound
    have hen : e ≤ n := by omega
    show (if e < offs.length ∧ start < offs.length then _ else _) = _
    rw [if_pos (by omega)]
    rw [salsaInner]
    by_cases hbrk : salsaLL offs start e > max ∧ e ≠ start + 1
    · rw [if_pos hbrk, if_pos hbrk]
    · rw [if_neg hbrk, if_neg hbrk]
      rw [if_pos (by omega)]
      have hpen : salsaPenaltyChecked max n offs start e =
          some (salsaPenalty max n offs start e) := by
        unfold salsaPenaltyChecked salsaPenalty
        by_cases hne : e ≠ n
        · rw [if_pos hne, if_pos hne]
          unfold checkedPow2
          rw [if_pos (le_trans
            (Nat.pow_le_pow_left (Nat.sub_le max _) 2) (by omega))]
        · rw [if_neg hne, if_neg hne]
      have hcost : salsaCostChecked max n offs start e m =
          some (salsaCost max n offs start e m) := by
        unfold salsaCostChecked
        rw [hpen]
        show checkedAdd (m.getD start (0, 0)).2
          (salsaPenalty max n offs start e) = _
        unfold checkedAdd salsaCost
        rw [if_pos (le_trans (Nat.add_le_add_left
          (salsaPenalty_le max n offs start e) _) hbound)]
      rw [hcost]
      refine ih (e + 1) _ (by omega) (by omega) ?_ ?_
      · by_cases hrel : salsaCost max n offs start e m < (m.getD e (0, 0)).2
        · rw [if_pos hrel, List.length_set]
          exact hlen
        · rw [if_neg hrel]
          exact hlen
      · by_cases hrel : salsaCost max n offs start e m < (m.getD e (0, 0)).2
        · rw [if_pos hrel, getD_set_ne m _ _ (by omega)]
          exact hbound
        · rw [if_neg hrel]
          exact hbound

theorem salsaOuterChecked_eq (wcjk : String → Nat) (words : List String)
    (max : Nat)
    (hsane : words.length * max ^ 2 < USIZE_MAX) :
    ∀ (steps start : Nat), start + steps = words.length →
      salsaOuterChecked max words.length (salsaOffsets wcjk words) steps
          start (salsaOuter max words.length (salsaOffsets wcjk words)
            start 0 ((0, 0) ::
              List.replicate words.length (0, USIZE_MAX))) =
        some (salsaOuter max words.length (salsaOffsets wcjk words) steps
          start (salsaOuter max words.length (salsaOffsets wcjk words)
            start 0 ((0, 0) ::
              List.replicate words.length (0, USIZE_MAX)))) := by
  have hoffs : (salsaOffsets wcjk words).length = words.length + 1 :=
    salsaOffsetsFrom_length wcjk words 0
  intro steps
  induction steps with
  | zero => intro start _; rfl
  | succ steps ih =>
    intro start hsn
    have hlen : (salsaOuter max words.length (salsaOffsets wcjk words)
        start 0 ((0, 0) ::
          List.replicate words.length (0, USIZE_MAX))).length =
        words.length + 1 := by
      rw [salsaOuter_length]
      simp
    have hreachs := salsa_reach max words.length (salsaOffsets wcjk words)
      start (by omega)
    have hmul : (start + 1) * max ^ 2 ≤ words.length * max ^ 2 :=
      Nat.mul_le_mul_right _ (by omega)
    have hbound : ((salsaOuter max words.length (salsaOffsets wcjk words)
        start 0 ((0, 0) ::
          List.replicate words.length (0, USIZE_MAX))).getD
        start (0, 0)).2 + max ^ 2 ≤ USIZE_MAX := by
      have : (start + 1) * max ^ 2 = start * max ^ 2 + max ^ 2 := by ring
      omega
    show (match salsaInnerChecked max words.length
        (salsaOffsets wcjk words) start (words.length - start) (start + 1)
        (salsaOuter max words.length (salsaOffsets wcjk words) start 0
          ((0, 0) :: List.replicate words.length (0, USIZE_MAX))) with
      | none => none
      | some m2 => salsaOuterChecked max words.length
          (salsaOffsets wcjk words) steps (start + 1) m2) = _
    rw [salsaInnerChecked_eq max words.length (salsaOffsets wcjk words)
      start hoffs (words.length - start) (start + 1) _ (Nat.le_refl _)
      (by omega) hlen hbound]
    show salsaOuterChecked max words.length (salsaOffsets wcjk words) steps
      (start + 1) (salsaInner max words.length (salsaOffsets wcjk words)
        start (words.length - start) (start + 1)
        (salsaOuter max words.length (salsaOffsets wcjk words) start 0
          ((0, 0) :: List.replicate words.length (0, USIZE_MAX)))) = _
    have hstep : salsaInner max words.length (salsaOffsets wcjk words)
        start (words.length - start) (start + 1)
        (salsaOuter max words.length (salsaOffsets wcjk words) start 0
          ((0, 0) :: List.replicate words.length (0, USIZE_MAX))) =
        salsaOuter max words.length (salsaOffsets wcjk words) (start + 1) 0
          ((0, 0) :: List.replicate words.length (0, USIZE_MAX)) := by
      have hcomp := salsaOuter_compose max words.length
        (salsaOffsets wcjk words) start 1 0
        ((0, 0) :: List.replicate words.length (0, USIZE_MAX))
      rw [Nat.zero_add] at hcomp
      rw [hcomp]
      rfl
    rw [hstep, ih (start + 1) (by omega)]
    show some _ = some (salsaOuter max words.length
      (salsaOffsets wcjk words) steps (start + 1)
      (salsaInner max words.length (salsaOffsets wcjk words) start
        (words.length - start) (start + 1)
        (salsaOuter max words.length (salsaOffsets wcjk words) start 0
          ((0, 0) :: List.replicate words.length (0, USIZE_MAX)))))
    rw [hstep]

theorem salsaPrepareChecked_eq (wcjk : String → Nat) (words : List String)
    (max : Nat) (hsane : words.length * max ^ 2 < USIZE_MAX) :
    salsaPrepareChecked wcjk words max =
      some (salsaPrepare wcjk words max) := by
  have h := salsaOuterChecked_eq wcjk words max hsane words.length 0
    (by omega)
  unfold salsaPrepareChecked
  rw [show salsaOuter max words.length (salsaOffsets wcjk words) 0 0
      ((0, 0) :: List.replicate words.length (0, USIZE_MAX)) =
      ((0, 0) :: List.replicate words.length (0, USIZE_MAX)) from rfl] at h
  rw [h]
  rfl

/-- **C9** (amended).  The tokenizer, parser and merger are total by
construction (structurally recursive functions above, independent of any
fuel: `parseAux_fuel`).  In the wrapper, the first-fit strategy's word
indexing is always in bounds along the decision thread (the wrapper
maintains `rest = words.drop i`), and, **provided the shortest-path costs
stay below `usize::MAX`**, the optimal-fit preparation performs no
out-of-bounds access and no overflowing arithmetic: the checked variants
agree with the unchecked embedding.  Without that bound the claim is
false: the penalty squaring overflows (counterexample below). -/
theorem pipeline_safety (wcjk : String → Nat) :
    (∀ (words : List String) (s : GuacState) (i : Nat) (rest : List String),
      words.drop i = rest →
      sauceDecisionsGuacChecked wcjk words s i rest =
        some (sauceDecisions (guacamole wcjk) words s i rest)) ∧
    (∀ (words : List String) (max : Nat),
      words.length * max ^ 2 < USIZE_MAX →
      salsaPrepareChecked wcjk words max =
        some (salsaPrepare wcjk words max)) :=
  ⟨fun words s i rest hdrop =>
      sauceDecisionsGuacChecked_eq wcjk words rest i s hdrop,
    fun words max hsane => salsaPrepareChecked_eq wcjk words max hsane⟩

/-- **C9** (counterexample to the claim as written).  At width `2^33` on
the two-word input `a b`, the penalty of the edge `(0, 1)` is
`(2^33 - 1)^2 > usize::MAX`: the checked preparation fails, so the Rust
`pow(2)` overflows `usize` and the pipeline is not total. -/
theorem pipeline_safety_counterexample :
    salsaPrepareChecked String.length ["a", "b"] (2 ^ 33) = none ∧
    USIZE_MAX <
      salsaPenalty (2 ^ 33) 2 (salsaOffsets String.length ["a", "b"]) 0 1 := by
  refine ⟨by decide, by decide⟩

/-- Witness: the safety theorem applied at concrete inputs. -/
theorem pipeline_safety_witness :
    (["ab", "cd"] : List String).drop 1 = ["cd"] ∧
    (2 * 3 ^ 2 < USIZE_MAX) ∧
    sauceDecisionsGuacChecked String.length ["ab", "cd"]
        { max := 3, width := 2 } 1 ["cd"] =
      some (sauceDecisions (guacamole String.length) ["ab", "cd"]
        { max := 3, width := 2 } 1 ["cd"]) ∧
    salsaPrepareChecked String.length ["ab", "cd"] 3 =
      some (salsaPrepare String.length ["ab", "cd"] 3) :=
  ⟨by decide, by decide,
    (pipeline_safety String.length).1 ["ab", "cd"]
      { max := 3, width := 2 } 1 ["cd"] (by decide),
    (pipeline_safety String.length).2 ["ab", "cd"] 3 (by decide)⟩

/-- Witness: the amended width bound applied at a concrete line. -/
theorem width_bound_witness :
    unbreakableWidth String.length topW lineW ≤ 80 ∧
    ((∀ seg ∈ outLines "\n"
        (lineWrap (guacamole String.length) String.length topW lineW),
      fragsWidth topW String.length seg ≤ 80 ∨
        ∃ w, breakableWidth String.length topW lineW < String.length w ∧
          (seg = firstLead lineW ++ [w] ∨
            seg = contLead lineW (bulletWidth String.length lineW) ++ [w])) ∧
    (2 * breakableWidth String.length topW lineW ^ 2 < USIZE_MAX →
      ∀ seg ∈ outLines "\n"
          (lineWrap (salsa String.length) String.length topW lineW),
        fragsWidth topW String.length seg ≤ 80 ∨
          ∃ w, breakableWidth String.length topW lineW < String.length w ∧
            (seg = firstLead lineW ++ [w] ∨
              seg = contLead lineW
                (bulletWidth String.length lineW) ++ [w]))) :=
  ⟨by decide,
    width_bound String.length topW lineW
      (by decide)
      (by
        intro c hcc
        have hcc2 : (some "//" : Option String) = some c := hcc
        injection hcc2 with h
        subst h
        exact ⟨by decide, by decide, by decide, by decide⟩)
      (by
        intro b hbb
        have hbb2 : (some "-" : Option String) = some b := hbb
        injection hbb2 with h
        subst h
        exact ⟨by decide, by decide, by decide, by decide⟩)
      (by
        intro w hwm
        have hwm2 : w ∈ (["ab", "cd"] : List String) := hwm
        simp only [List.mem_cons, List.not_mem_nil, or_false] at hwm2
        rcases hwm2 with rfl | rfl <;>
          exact ⟨by decide, by decide, by decide, by decide⟩)⟩

end Tortilla
